import Mathlib

/-!
# Verification of the sudoku solving engine (`solver.py`)

Shallow embedding of the solver in `src/solver.py` of `clbarnes/solve_sudoku`.

Modelling conventions:
* Python `int` values inside the grid are modelled as `Int`.
* A `Cell`'s `possibilities` is a `List Int`, as in the source (a Python
  list); `list.remove` is `List.erase` (both remove the first occurrence,
  raising/branching when the element is absent).
* Exceptions are modelled by explicit result types: `Except PError` for the
  pure cell/grid operations and `SRes` for the recursive procedures, where
  the extra `fuelOut` constructor reports exhaustion of the explicit fuel
  that replaces Python's unbounded recursion.  `PError.clash` models
  `ClashException`; the other constructors model the builtin exceptions the
  source can raise (`ValueError` from `min` of an empty sequence,
  `TypeError` from `int(None)`, `ZeroDivisionError`, `AssertionError`).
* `validate_array`'s `sqrt(n_rows) % 1` test (a float computation in the
  source) is modelled exactly on naturals via `Nat.sqrt`.
* The textual template / printing / CSV parsing glue is presentation-only
  (spec §6) and is not part of the model; `Sudoku` therefore carries just
  the cell tuple, which is the only attribute the engine reads.
-/

/-- Python exceptions that the modelled code can raise.  `clash` is
`ClashException`; the rest are builtins. -/
inductive PError : Type where
  | clash
  | valueError
  | typeError
  | zeroDivision
  | assertion
  | indexError
  deriving DecidableEq, Repr

/-- Result of a fueled recursive procedure: normal value, an escaping
`ClashException`, fuel exhaustion (the model's stand-in for arbitrarily
deep recursion), or another escaping Python exception. -/
inductive SRes (α : Type) : Type where
  | ok (a : α)
  | clash
  | fuelOut
  | err (e : PError)
  deriving DecidableEq, Repr

/-- One cell of the grid: `Cell.__init__` stores `row`, `col`, the
precomputed `subgrid = (row // order, col // order)` and the candidate list
`possibilities`. -/
structure Cell : Type where
  row : Nat
  col : Nat
  subgrid : Nat × Nat
  possibilities : List Int
  deriving DecidableEq, Repr

/-- `range(1, sudoku_order ** 2 + 1)` as a list of `Int`. -/
def fullRange (order : Nat) : List Int :=
  (List.range (order ^ 2)).map (fun i => ((i + 1 : Nat) : Int))

/-- `Cell.__init__` specialised to an integer `value` argument (the only
case arising from `cells_from_arr`): `int(value)` is the identity, then
`if value:` keeps `[value]` and otherwise takes the full range. -/
def Cell.initInt (row col : Nat) (order : Nat) (value : Int) : Cell :=
  { row := row
    col := col
    subgrid := (row / order, col / order)
    possibilities := if value = 0 then fullRange order else [value] }

/-- The `value` argument of `Cell.__init__` as Python receives it: an
integer, `None` (the default), or a string abstracted by the outcome of
`int(...)` on it (`some n` when it parses, `none` when `int` raises
`ValueError`). -/
inductive RawValue : Type where
  | vint (n : Int)
  | vnone
  | vstr (parsed : Option Int)
  deriving DecidableEq, Repr

/-- `Cell.__init__` in full: `int(value)` catching only `ValueError` (so
`None` escapes with `TypeError`), then the truthiness test on the result.
The `subgrid` computation `row // sudoku_order` raises `ZeroDivisionError`
when the order is `0`. -/
def Cell.init (row col : Nat) (order : Nat) (raw : RawValue) :
    Except PError Cell :=
  match raw with
  | .vnone => .error .typeError
  | .vint n =>
      if order = 0 then .error .zeroDivision
      else .ok (Cell.initInt row col order n)
  | .vstr (some n) =>
      if order = 0 then .error .zeroDivision
      else .ok (Cell.initInt row col order n)
  | .vstr none =>
      if order = 0 then .error .zeroDivision
      else .ok (Cell.initInt row col order 0)

/-- The `value` property: the single candidate if exactly one remains,
else `0`. -/
def Cell.value (c : Cell) : Int :=
  match c.possibilities with
  | [v] => v
  | _ => 0

/-- The `value` setter: collapse to `[val]` if `val` is a candidate, else
raise `ClashException`. -/
def Cell.setValue (c : Cell) (val : Int) : Except PError Cell :=
  if val ∈ c.possibilities then
    .ok { c with possibilities := [val] }
  else .error .clash

/-- `Cell.eliminate`: raise `ClashException` when the candidate list is
exactly `[value]`; otherwise `possibilities.remove(value)` (first
occurrence, `ValueError` caught and turned into the return value `0`) and
return `self.value`. -/
def Cell.eliminate (c : Cell) (value : Int) : Except PError (Cell × Int) :=
  if c.possibilities = [value] then .error .clash
  else if value ∈ c.possibilities then
    let c2 : Cell := { c with possibilities := c.possibilities.erase value }
    .ok (c2, c2.value)
  else .ok (c, 0)

/-- `Cell.matches`: same row, column or subgrid. -/
def Cell.matchesCell (a b : Cell) : Bool :=
  a.row == b.row || a.col == b.col || a.subgrid == b.subgrid

/-- `Cell.__eq__`: same row and column. -/
def cellEq (a b : Cell) : Bool :=
  a.row == b.row && a.col == b.col

/-- Inner loop of `cells_from_arr` (`enumerate` over one row). -/
def rowCells (order : Nat) (rowIdx : Nat) : Nat → List Int → List Cell
  | _, [] => []
  | colIdx, v :: rest =>
      Cell.initInt rowIdx colIdx order v :: rowCells order rowIdx (colIdx + 1) rest

/-- Outer loop of `cells_from_arr` (`enumerate` over the rows). -/
def cellsFromArrAux (order : Nat) : Nat → List (List Int) → List Cell
  | _, [] => []
  | rowIdx, row :: rest =>
      rowCells order rowIdx 0 row ++ cellsFromArrAux order (rowIdx + 1) rest

/-- `cells_from_arr`: one `Cell` per grid position, row-major. -/
def cells_from_arr (arr : List (List Int)) (order : Nat) : List Cell :=
  cellsFromArrAux order 0 arr

/-- Largest `k ≤ bound` with `k * k ≤ n` (a structurally recursive integer
square root, used to model the source's `sqrt(n_rows)` exactly on the
perfect squares the validator accepts). -/
def intSqrtGo : Nat → Nat → Nat
  | 0, _ => 0
  | k + 1, n => if (k + 1) * (k + 1) ≤ n then k + 1 else intSqrtGo k n

/-- Integer square root: `⌊sqrt n⌋`. -/
def intSqrt (n : Nat) : Nat := intSqrtGo n n

/-- `validate_array`: assert the row count is a perfect square, every row
has that length, and every entry lies in `range(order ** 2 + 1)`; return
the order. -/
def validate_array (array : List (List Int)) : Except PError Nat :=
  let nRows := array.length
  if intSqrt nRows * intSqrt nRows ≠ nRows then .error .assertion
  else
    let order := intSqrt nRows
    if array.all
        (fun row => row.length = nRows &&
          row.all (fun v => 0 ≤ v && v ≤ ((order ^ 2 : Nat) : Int))) then
      .ok order
    else .error .assertion

/-- The puzzle state: the tuple of cells (the template string the Python
constructor also stores is pure presentation and is omitted). -/
structure Sudoku : Type where
  cells : List Cell
  deriving DecidableEq, Repr

instance : Inhabited Cell := ⟨⟨0, 0, (0, 0), []⟩⟩

/-- `self.cells[i]` (every access in the source is guarded to be in
bounds, so the default value is never read along modelled paths). -/
def Sudoku.cellAt (s : Sudoku) (i : Nat) : Cell :=
  s.cells.getD i default

/-- `Sudoku.__init__`: validate, then build the cells. -/
def Sudoku.init (arr : List (List Int)) : Except PError Sudoku :=
  match validate_array arr with
  | .error e => .error e
  | .ok order => .ok ⟨cells_from_arr arr order⟩

/-- `is_solved`: every cell has a (single) value. -/
def Sudoku.is_solved (s : Sudoku) : Bool :=
  s.cells.all (fun c => c.value != 0)

/-- Number of determined cells (`sum(bool(cell.value) for cell in cells)`). -/
def Sudoku.solvedCount (s : Sudoku) : Nat :=
  (s.cells.filter (fun c => c.value != 0)).length

/-- `progress`: determined count over total count; Python `/` raises
`ZeroDivisionError` on an empty cell tuple. -/
def Sudoku.progress (s : Sudoku) : Except PError ℚ :=
  if s.cells.length = 0 then .error .zeroDivision
  else .ok ((s.solvedCount : ℚ) / (s.cells.length : ℚ))

/-- Total number of remaining candidates over all cells (the termination
measure of the cascade). -/
def Sudoku.totalPoss (s : Sudoku) : Nat :=
  (s.cells.map (fun c => c.possibilities.length)).sum

/-- The body of `Sudoku.eliminate`: the `for idx, other_cell in
enumerate(self.cells)` loop of a call whose subject cell (its coordinates
are immutable) is `cell` and whose captured `value = cell.value` is
`value`; `j` is the loop index.  The recursive `self.eliminate(other_cell)`
appears inlined: it is reached exactly when `newly_set` is truthy, and then
`other_cell.value = newly_set`, so the nested call's loop starts at index
`0` with value `newly_set`.  `fuel` decreases at every step and stands for
Python's (unbounded) recursion depth. -/
def Sudoku.elimLoop : Nat → Sudoku → Cell → Int → Nat → SRes Sudoku
  | 0, _, _, _, _ => .fuelOut
  | fuel + 1, s, cell, value, j =>
      if j < s.cells.length then
        if cellEq cell (s.cellAt j) then Sudoku.elimLoop fuel s cell value (j + 1)
        else if Cell.matchesCell cell (s.cellAt j) then
          match (s.cellAt j).eliminate value with
          | .error _ => .clash
          | .ok (other2, newlySet) =>
              if newlySet ≠ 0 then
                match Sudoku.elimLoop fuel ⟨s.cells.set j other2⟩ other2 newlySet 0 with
                | .ok s3 => Sudoku.elimLoop fuel s3 cell value (j + 1)
                | r => r
              else Sudoku.elimLoop fuel ⟨s.cells.set j other2⟩ cell value (j + 1)
        else Sudoku.elimLoop fuel s cell value (j + 1)
      else .ok s

/-- `Sudoku.eliminate`: return at once when the subject cell has no value,
else run the elimination loop over all cells. -/
def Sudoku.eliminate (fuel : Nat) (s : Sudoku) (cell : Cell) : SRes Sudoku :=
  if cell.value = 0 then .ok s
  else Sudoku.elimLoop fuel s cell cell.value 0

/-- The `for cell in self.cells: if cell.value: self.eliminate(cell)` pass
of `_easy_step`; iteration re-reads the (mutated) cells, as the Python loop
does through the shared objects. -/
def Sudoku.easyLoop : Nat → Sudoku → Nat → SRes Sudoku
  | 0, _, _ => .fuelOut
  | fuel + 1, s, i =>
      if i < s.cells.length then
        if (s.cellAt i).value ≠ 0 then
          match Sudoku.eliminate fuel s (s.cellAt i) with
          | .ok s2 => Sudoku.easyLoop fuel s2 (i + 1)
          | r => r
        else Sudoku.easyLoop fuel s (i + 1)
      else .ok s

/-- The branch-candidate list `[(cell_idx, cell.possibilities) ...]` built
by `_easy_step`, with `enumerate` rendered as an index-threading
recursion. -/
def candListAux : Nat → List Cell → List (Nat × List Int)
  | _, [] => []
  | i, c :: rest =>
      if 1 < c.possibilities.length then
        (i, c.possibilities) :: candListAux (i + 1) rest
      else candListAux (i + 1) rest

/-- All `(index, possibilities)` pairs of cells with more than one
candidate. -/
def Sudoku.candList (s : Sudoku) : List (Nat × List Int) :=
  candListAux 0 s.cells

/-- Python tuple comparison on the `min` key `(len(possibilities), idx)`. -/
def keyLt (a b : Nat × List Int) : Prop :=
  a.2.length < b.2.length ∨ (a.2.length = b.2.length ∧ a.1 < b.1)

instance (a b : Nat × List Int) : Decidable (keyLt a b) := by
  unfold keyLt; infer_instance

/-- Python `min(..., key=lambda x: (len(x[1]), x[0]))`: `None` on an empty
sequence (where Python raises `ValueError`), else the fold that keeps the
first key-minimal element. -/
def pyMin : List (Nat × List Int) → Option (Nat × List Int)
  | [] => none
  | x :: xs => some (xs.foldl (fun best y => if keyLt y best then y else best) x)

/-- `_easy_step`: `None` result is modelled as `none`; a chosen branch
point as `some (cell_idx, possibilities)`.  The mutated state is returned
alongside. -/
def Sudoku.easyStep (fuel : Nat) (s : Sudoku) :
    SRes (Sudoku × Option (Nat × List Int)) :=
  if s.is_solved then .ok (s, none)
  else
    match Sudoku.easyLoop fuel s 0 with
    | .ok s2 =>
        if s2.is_solved then .ok (s2, none)
        else
          match pyMin s2.candList with
          | none => .err .valueError
          | some best => .ok (s2, some best)
    | .clash => .clash
    | .fuelOut => .fuelOut
    | .err e => .err e

/-- `new_sudoku2.cells[cell_idx].value = possibility`. -/
def Sudoku.setCellValue (s : Sudoku) (idx : Nat) (val : Int) :
    Except PError Sudoku :=
  if idx < s.cells.length then
    match (s.cellAt idx).setValue val with
    | .ok c2 => .ok ⟨s.cells.set idx c2⟩
    | .error e => .error e
  else .error .indexError

mutual
/-- `Sudoku.solve` (without the optional progress callback, which has no
effect on control flow): deep copies are the identity on immutable values,
so the copy steps are implicit.  A `ClashException` escaping `_easy_step`
escapes `solve`. -/
def Sudoku.solve : Nat → Sudoku → SRes Sudoku
  | 0, _ => .fuelOut
  | fuel + 1, s =>
      match Sudoku.easyStep fuel s with
      | .ok (s2, none) => .ok s2
      | .ok (s2, some (cellIdx, poss)) => Sudoku.tryCands fuel s2 cellIdx poss
      | .clash => .clash
      | .fuelOut => .fuelOut
      | .err e => .err e

/-- The `for possibility in possibilities:` loop of `solve`: assign (a
`ClashException` here is outside the `try` and escapes), recurse, catch
exactly `ClashException` and move to the next candidate; raise Clash when
the candidates are exhausted. -/
def Sudoku.tryCands : Nat → Sudoku → Nat → List Int → SRes Sudoku
  | 0, _, _, _ => .fuelOut
  | _ + 1, _, _, [] => .clash
  | fuel + 1, s, cellIdx, p :: rest =>
      match Sudoku.setCellValue s cellIdx p with
      | .error .clash => .clash
      | .error e => .err e
      | .ok s2 =>
          match Sudoku.solve fuel s2 with
          | .clash => Sudoku.tryCands fuel s cellIdx rest
          | r => r
end

/-! ## Specification predicates -/

/-- Well-formedness of the candidate lists of a state reachable from a
validated grid: no duplicates, never empty, and only positive values. -/
def PossOK (s : Sudoku) : Prop :=
  ∀ i, i < s.cells.length →
    (s.cellAt i).possibilities.Nodup ∧
    (s.cellAt i).possibilities ≠ [] ∧
    ∀ w ∈ (s.cellAt i).possibilities, 0 < w

/-- Distinct positions hold cells with distinct coordinates (so Python's
`cell == other_cell` test separates exactly the same-position case). -/
def WFcoords (s : Sudoku) : Prop :=
  ∀ i j, i < s.cells.length → j < s.cells.length → i ≠ j →
    cellEq (s.cellAt i) (s.cellAt j) = false

/-- `t` is an evolution of `s`: same shape, same coordinates, and each
cell's candidate list only lost elements (and never became empty unless it
already was). -/
def evolves (s t : Sudoku) : Prop :=
  t.cells.length = s.cells.length ∧
  ∀ i,
    (t.cellAt i).row = (s.cellAt i).row ∧
    (t.cellAt i).col = (s.cellAt i).col ∧
    (t.cellAt i).subgrid = (s.cellAt i).subgrid ∧
    List.Sublist (t.cellAt i).possibilities (s.cellAt i).possibilities ∧
    ((s.cellAt i).possibilities ≠ [] → (t.cellAt i).possibilities ≠ [])

/-- The determined value of cell `p` (if any) has been eliminated from
every other cell in conflict with it. -/
def propagatedAt (s : Sudoku) (p : Nat) : Prop :=
  ∀ v, (s.cellAt p).possibilities = [v] →
    ∀ k, k < s.cells.length →
      Cell.matchesCell (s.cellAt p) (s.cellAt k) = true →
      cellEq (s.cellAt p) (s.cellAt k) = false →
      v ∉ (s.cellAt k).possibilities

/-- Every determined cell has been fully propagated. -/
def Done (s : Sudoku) : Prop := ∀ p, propagatedAt s p

/-- No two conflicting determined cells hold the same value. -/
def NoConf (s : Sudoku) : Prop :=
  ∀ i j vi vj, i < s.cells.length → j < s.cells.length →
    Cell.matchesCell (s.cellAt i) (s.cellAt j) = true →
    cellEq (s.cellAt i) (s.cellAt j) = false →
    (s.cellAt i).possibilities = [vi] →
    (s.cellAt j).possibilities = [vj] →
    vi ≠ vj

/-- Every candidate list is strictly ascending. -/
def AllSorted (s : Sudoku) : Prop :=
  ∀ i, i < s.cells.length →
    List.Sorted (· < ·) (s.cellAt i).possibilities

/-- The final no-conflict property of a grid: distinct cells sharing a
row, column or block hold different values. -/
def noTwoShare (s : Sudoku) : Prop :=
  ∀ i, i < s.cells.length → ∀ j, j < s.cells.length → i ≠ j →
    Cell.matchesCell (s.cellAt i) (s.cellAt j) = true →
    (s.cellAt i).value ≠ (s.cellAt j).value

/-- The grid `arr` has two identical nonzero givens at two distinct
positions in conflict (same row, same column, or same block for the given
`order`). -/
def dupGivens (arr : List (List Int)) (order : Nat) : Prop :=
  ∃ r1 c1 r2 c2 v,
    r1 < arr.length ∧ c1 < (arr.getD r1 []).length ∧
    r2 < arr.length ∧ c2 < (arr.getD r2 []).length ∧
    (r1, c1) ≠ (r2, c2) ∧
    (r1 = r2 ∨ c1 = c2 ∨ (r1 / order, c1 / order) = (r2 / order, c2 / order)) ∧
    v ≠ 0 ∧
    (arr.getD r1 []).getD c1 0 = v ∧ (arr.getD r2 []).getD c2 0 = v

/-! ### Concrete grids used as test fixtures -/

/-- A fully given but contradictory 4×4 grid (duplicated givens in every
row, column and block). -/
def badFullArr : List (List Int) :=
  [[1, 1, 2, 2], [2, 2, 1, 1], [1, 1, 2, 2], [2, 2, 1, 1]]

/-- The puzzle state built from `badFullArr`. -/
def badFullSudoku : Sudoku := ⟨cells_from_arr badFullArr 2⟩

/-- A 4×4 grid with two duplicated givens in its first row and empty cells
elsewhere. -/
def badPartialArr : List (List Int) :=
  [[1, 1, 0, 0], [0, 0, 0, 0], [0, 0, 0, 0], [0, 0, 0, 0]]

/-- The puzzle state built from `badPartialArr`. -/
def badPartialSudoku : Sudoku := ⟨cells_from_arr badPartialArr 2⟩

/-- A 4×4 grid whose four empty cells form an unavoidable pair pattern:
propagation leaves each of them with candidates `[1, 3]`. -/
def deadlyArr : List (List Int) :=
  [[1, 2, 3, 4], [3, 4, 1, 2], [2, 0, 4, 0], [4, 0, 2, 0]]

/-- The puzzle state built from `deadlyArr`. -/
def deadlySudoku : Sudoku := ⟨cells_from_arr deadlyArr 2⟩

/-- A valid 4×4 grid with a single empty cell. -/
def nearlyArr : List (List Int) :=
  [[1, 2, 3, 4], [3, 4, 1, 2], [2, 1, 4, 3], [4, 3, 2, 0]]

/-- The puzzle state built from `nearlyArr`. -/
def nearlySudoku : Sudoku := ⟨cells_from_arr nearlyArr 2⟩

instance (s : Sudoku) : Decidable (AllSorted s) := by
  unfold AllSorted
  infer_instance

instance (s : Sudoku) : Decidable (noTwoShare s) := by
  unfold noTwoShare
  infer_instance

/-- Extract the state component of a successful `easyStep` result (used
only to name concrete test-fixture states). -/
def sresStepState (r : SRes (Sudoku × Option (Nat × List Int))) : Sudoku :=
  match r with
  | .ok (s, _) => s
  | _ => ⟨[]⟩

/-- Extract the state of a successful `SRes` result. -/
def sresState (r : SRes Sudoku) : Sudoku :=
  match r with
  | .ok s => s
  | _ => ⟨[]⟩

/-- Extract the state of a successful `Except` result. -/
def exceptState (r : Except PError Sudoku) : Sudoku :=
  match r with
  | .ok s => s
  | _ => ⟨[]⟩

/-- The state after the `_easy_step` pass on `deadlySudoku`. -/
def deadlyStepped : Sudoku := sresStepState (Sudoku.easyStep 100 deadlySudoku)

/-- `deadlyStepped` with the branch cell (index 9) assigned `1`. -/
def deadlyAssigned : Sudoku :=
  exceptState (Sudoku.setCellValue deadlyStepped 9 1)

/-- The solved state reached from `deadlyAssigned`. -/
def deadlySolved : Sudoku := sresState (Sudoku.solve 100 deadlyAssigned)

/-- The state `solve` returns on the nearly-complete grid `nearlyArr`. -/
def nearlySolved : Sudoku := sresState (Sudoku.solve 100 nearlySudoku)

instance {ε α : Type} [DecidableEq ε] [DecidableEq α] :
    DecidableEq (Except ε α) := fun a b =>
  match a, b with
  | .error x, .error y => decidable_of_iff (x = y) (by simp)
  | .error _, .ok _ => isFalse (fun h => Except.noConfusion h)
  | .ok _, .error _ => isFalse (fun h => Except.noConfusion h)
  | .ok x, .ok y => decidable_of_iff (x = y) (by simp)

/-! ## Basic cell lemmas -/

theorem Cell.value_of_singleton {c : Cell} {v : Int}
    (h : c.possibilities = [v]) : c.value = v := by
  simp [Cell.value, h]

theorem Cell.poss_of_value_ne_zero {c : Cell} (h : c.value ≠ 0) :
    c.possibilities = [c.value] := by
  rcases hp : c.possibilities with - | ⟨a, - | ⟨b, l⟩⟩
  · simp [Cell.value, hp] at h
  · simp [Cell.value, hp]
  · simp [Cell.value, hp] at h

theorem Cell.value_zero_of_not_singleton {c : Cell}
    (h : ∀ v, c.possibilities ≠ [v]) : c.value = 0 := by
  rcases hp : c.possibilities with - | ⟨a, - | ⟨b, l⟩⟩
  · simp [Cell.value, hp]
  · exact absurd hp (h a)
  · simp [Cell.value, hp]

theorem Cell.eliminate_error_iff {c : Cell} {v : Int} {e : PError} :
    c.eliminate v = .error e ↔ (e = .clash ∧ c.possibilities = [v]) := by
  unfold Cell.eliminate
  split_ifs with h1 h2
  · simp [h1, eq_comm]
  · simp [h1]
  · simp [h1]

theorem Cell.eliminate_ok_inv {c c2 : Cell} {v r : Int}
    (h : c.eliminate v = .ok (c2, r)) :
    c2.row = c.row ∧ c2.col = c.col ∧ c2.subgrid = c.subgrid ∧
    c2.possibilities = c.possibilities.erase v ∧
    c.possibilities ≠ [v] ∧
    r = (if v ∈ c.possibilities then c2.value else 0) := by
  unfold Cell.eliminate at h
  split_ifs at h with h1 h2
  · cases h
    refine ⟨rfl, rfl, rfl, rfl, h1, ?_⟩
    simp [h2]
  · cases h
    refine ⟨rfl, rfl, rfl, (List.erase_of_not_mem h2).symm, h1, ?_⟩
    simp [h2]

theorem Cell.eliminate_ok_nonempty {c c2 : Cell} {v r : Int}
    (h : c.eliminate v = .ok (c2, r)) (hne : c.possibilities ≠ []) :
    c2.possibilities ≠ [] := by
  obtain ⟨-, -, -, hposs, hnv, -⟩ := Cell.eliminate_ok_inv h
  by_cases hv : v ∈ c.possibilities
  · rcases hp : c.possibilities with - | ⟨a, - | ⟨b, l⟩⟩
    · exact absurd hp hne
    · rw [hp] at hv
      simp at hv
      subst hv
      exact absurd hp hnv
    · rw [hp] at hposs hv
      have hlen : ((a :: b :: l).erase v).length = (a :: b :: l).length - 1 :=
        List.length_erase_of_mem hv
      have : 0 < c2.possibilities.length := by
        rw [hposs, hlen]; simp
      exact List.ne_nil_of_length_pos this
  · rw [List.erase_of_not_mem hv] at hposs
    rw [hposs]; exact hne

theorem Cell.eliminate_singleton_ok {c c2 : Cell} {v w r : Int}
    (hp : c.possibilities = [w])
    (h : c.eliminate v = .ok (c2, r)) : c2.possibilities = [w] := by
  obtain ⟨-, -, -, hposs, hnv, -⟩ := Cell.eliminate_ok_inv h
  rw [hp] at hnv
  have hvw : w ≠ v := by intro hh; exact hnv (by rw [hh])
  rw [hposs, hp, List.erase_of_not_mem (by simpa using Ne.symm hvw)]

/-! ## `cellAt` and `set` lemmas -/

theorem cellAt_eq_get {s : Sudoku} {i : Nat} (h : i < s.cells.length) :
    s.cellAt i = s.cells.get ⟨i, h⟩ := by
  simp [Sudoku.cellAt, List.getD, List.getElem?_eq_getElem h]

theorem cellAt_of_le {s : Sudoku} {i : Nat} (h : s.cells.length ≤ i) :
    s.cellAt i = default := by
  simp [Sudoku.cellAt, List.getD, List.getElem?_eq_none h]

theorem cellAt_set_self {s : Sudoku} {j : Nat} {c2 : Cell}
    (h : j < s.cells.length) :
    (Sudoku.mk (s.cells.set j c2)).cellAt j = c2 := by
  simp [Sudoku.cellAt, List.getD, List.getElem?_set_eq_of_lt c2 h]

theorem cellAt_set_ne {s : Sudoku} {j : Nat} {c2 : Cell} {i : Nat}
    (h : i ≠ j) :
    (Sudoku.mk (s.cells.set j c2)).cellAt i = s.cellAt i := by
  simp [Sudoku.cellAt, List.getD, List.getElem?_set_ne (Ne.symm h)]

theorem length_set_cells {s : Sudoku} {j : Nat} {c2 : Cell} :
    (Sudoku.mk (s.cells.set j c2)).cells.length = s.cells.length := by
  simp

theorem sum_map_set {α : Type} (f : α → Nat) :
    ∀ (l : List α) (j : Nat) (a : α) (h : j < l.length),
      ((l.set j a).map f).sum + f (l.get ⟨j, h⟩) = (l.map f).sum + f a := by
  intro l
  induction l with
  | nil => intro j a h; simp at h
  | cons x xs ih =>
      intro j a h
      cases j with
      | zero => simp [List.set]; omega
      | succ n =>
          simp only [List.set, List.map, List.sum_cons, List.get]
          have := ih n a (by simpa using h)
          omega

theorem totalPoss_set {s : Sudoku} {j : Nat} {c2 : Cell}
    (h : j < s.cells.length) :
    (Sudoku.mk (s.cells.set j c2)).totalPoss + (s.cellAt j).possibilities.length
      = s.totalPoss + c2.possibilities.length := by
  have := sum_map_set (fun c : Cell => c.possibilities.length) s.cells j c2 h
  simpa [Sudoku.totalPoss, cellAt_eq_get h] using this

/-! ## `evolves` lemmas -/

theorem evolves_refl (s : Sudoku) : evolves s s := by
  refine ⟨rfl, fun i => ⟨rfl, rfl, rfl, List.Sublist.refl _, fun h => h⟩⟩

theorem evolves_trans {s t u : Sudoku} (h1 : evolves s t) (h2 : evolves t u) :
    evolves s u := by
  obtain ⟨hl1, hi1⟩ := h1
  obtain ⟨hl2, hi2⟩ := h2
  refine ⟨hl2.trans hl1, fun i => ?_⟩
  obtain ⟨a1, b1, c1, d1, e1⟩ := hi1 i
  obtain ⟨a2, b2, c2, d2, e2⟩ := hi2 i
  exact ⟨a2.trans a1, b2.trans b1, c2.trans c1, d2.trans d1, fun h => e2 (e1 h)⟩

theorem evolves_set {s : Sudoku} {j : Nat} {c2 : Cell}
    (h : j < s.cells.length)
    (hrow : c2.row = (s.cellAt j).row)
    (hcol : c2.col = (s.cellAt j).col)
    (hsub : c2.subgrid = (s.cellAt j).subgrid)
    (hsl : List.Sublist c2.possibilities (s.cellAt j).possibilities)
    (hne : (s.cellAt j).possibilities ≠ [] → c2.possibilities ≠ []) :
    evolves s ⟨s.cells.set j c2⟩ := by
  refine ⟨by simp, fun i => ?_⟩
  by_cases hij : i = j
  · subst hij
    rw [cellAt_set_self h]
    exact ⟨hrow, hcol, hsub, hsl, hne⟩
  · rw [cellAt_set_ne hij]
    exact ⟨rfl, rfl, rfl, List.Sublist.refl _, fun hh => hh⟩

theorem singleton_stable {s t : Sudoku} (hev : evolves s t) {i : Nat} {v : Int}
    (h : (s.cellAt i).possibilities = [v]) :
    (t.cellAt i).possibilities = [v] := by
  obtain ⟨-, hi⟩ := hev
  obtain ⟨-, -, -, hsl, hne⟩ := hi i
  rw [h] at hsl hne
  rcases List.sublist_singleton.mp hsl with h0 | h1
  · exact absurd h0 (hne (by simp))
  · exact h1

theorem not_mem_stable {s t : Sudoku} (hev : evolves s t) {i : Nat} {v : Int}
    (h : v ∉ (s.cellAt i).possibilities) :
    v ∉ (t.cellAt i).possibilities :=
  fun hm => h ((hev.2 i).2.2.2.1.subset hm)

theorem matchesCell_congr {a a' b b' : Cell}
    (h1 : a'.row = a.row) (h2 : a'.col = a.col) (h3 : a'.subgrid = a.subgrid)
    (k1 : b'.row = b.row) (k2 : b'.col = b.col) (k3 : b'.subgrid = b.subgrid) :
    Cell.matchesCell a' b' = Cell.matchesCell a b := by
  simp [Cell.matchesCell, h1, h2, h3, k1, k2, k3]

theorem cellEq_congr {a a' b b' : Cell}
    (h1 : a'.row = a.row) (h2 : a'.col = a.col)
    (k1 : b'.row = b.row) (k2 : b'.col = b.col) :
    cellEq a' b' = cellEq a b := by
  simp [cellEq, h1, h2, k1, k2]

theorem matchesCell_evolves {s t : Sudoku} (hev : evolves s t) (i k : Nat) :
    Cell.matchesCell (t.cellAt i) (t.cellAt k)
      = Cell.matchesCell (s.cellAt i) (s.cellAt k) := by
  obtain ⟨-, hi⟩ := hev
  obtain ⟨a1, b1, c1, -, -⟩ := hi i
  obtain ⟨a2, b2, c2, -, -⟩ := hi k
  exact matchesCell_congr a1 b1 c1 a2 b2 c2

theorem cellEq_evolves {s t : Sudoku} (hev : evolves s t) (i k : Nat) :
    cellEq (t.cellAt i) (t.cellAt k) = cellEq (s.cellAt i) (s.cellAt k) := by
  obtain ⟨-, hi⟩ := hev
  obtain ⟨a1, b1, -, -, -⟩ := hi i
  obtain ⟨a2, b2, -, -, -⟩ := hi k
  exact cellEq_congr a1 b1 a2 b2

theorem PossOK_evolves {s t : Sudoku} (hev : evolves s t) (h : PossOK s) :
    PossOK t := by
  intro i hi
  obtain ⟨hl, hall⟩ := hev
  obtain ⟨-, -, -, hsl, hne⟩ := hall i
  obtain ⟨hnd, hn, hpos⟩ := h i (by omega)
  exact ⟨hnd.sublist hsl, hne hn, fun w hw => hpos w (hsl.subset hw)⟩

theorem WFcoords_evolves {s t : Sudoku} (hev : evolves s t) (h : WFcoords s) :
    WFcoords t := by
  intro i j hi hj hij
  have hl := hev.1
  rw [cellEq_evolves hev i j]
  exact h i j (by omega) (by omega) hij

theorem AllSorted_evolves {s t : Sudoku} (hev : evolves s t) (h : AllSorted s) :
    AllSorted t := by
  intro i hi
  exact (h i (by rw [← hev.1]; omega)).sublist (hev.2 i).2.2.2.1

/-! ## The cascade only shrinks candidate lists -/

theorem elimLoop_evolves :
    ∀ (fuel : Nat) (s : Sudoku) (cell : Cell) (v : Int) (j : Nat) (s' : Sudoku),
      Sudoku.elimLoop fuel s cell v j = .ok s' → evolves s s' := by
  intro fuel
  induction fuel with
  | zero =>
      intro s cell v j s' h
      simp [Sudoku.elimLoop] at h
  | succ fuel ih =>
      intro s cell v j s' h
      rw [Sudoku.elimLoop] at h
      by_cases hj : j < s.cells.length
      · rw [if_pos hj] at h
        by_cases hceq : cellEq cell (s.cellAt j) = true
        · rw [if_pos hceq] at h
          exact ih s cell v (j + 1) s' h
        · rw [if_neg hceq] at h
          by_cases hm : Cell.matchesCell cell (s.cellAt j) = true
          · rw [if_pos hm] at h
            rcases helim : (s.cellAt j).eliminate v with e | ⟨o2, ns⟩
            · rw [helim] at h
              dsimp only at h
              cases h
            · rw [helim] at h
              dsimp only at h
              obtain ⟨hr, hc, hg, hposs, -, -⟩ := Cell.eliminate_ok_inv helim
              have hstep : evolves s ⟨s.cells.set j o2⟩ := by
                refine evolves_set hj hr hc hg ?_ ?_
                · rw [hposs]; exact List.erase_sublist v _
                · exact Cell.eliminate_ok_nonempty helim
              by_cases hns : ns ≠ 0
              · rw [if_pos hns] at h
                cases hrec : Sudoku.elimLoop fuel ⟨s.cells.set j o2⟩ o2 ns 0 with
                | ok s3 =>
                    rw [hrec] at h
                    dsimp only at h
                    have h1 := ih _ o2 ns 0 s3 hrec
                    have h2 := ih s3 cell v (j + 1) s' h
                    exact evolves_trans hstep (evolves_trans h1 h2)
                | clash => rw [hrec] at h; dsimp only at h; cases h
                | fuelOut => rw [hrec] at h; dsimp only at h; cases h
                | err e => rw [hrec] at h; dsimp only at h; cases h
              · rw [if_neg hns] at h
                exact evolves_trans hstep (ih _ cell v (j + 1) s' h)
          · rw [if_neg hm] at h
            exact ih s cell v (j + 1) s' h
      · rw [if_neg hj] at h
        cases h
        exact evolves_refl _

theorem eliminate_evolves {fuel : Nat} {s : Sudoku} {cell : Cell} {s' : Sudoku}
    (h : Sudoku.eliminate fuel s cell = .ok s') : evolves s s' := by
  unfold Sudoku.eliminate at h
  split_ifs at h with h0
  · cases h
    exact evolves_refl _
  · exact elimLoop_evolves fuel s cell cell.value 0 s' h

theorem easyLoop_evolves :
    ∀ (fuel : Nat) (s : Sudoku) (i : Nat) (s' : Sudoku),
      Sudoku.easyLoop fuel s i = .ok s' → evolves s s' := by
  intro fuel
  induction fuel with
  | zero =>
      intro s i s' h
      simp [Sudoku.easyLoop] at h
  | succ fuel ih =>
      intro s i s' h
      rw [Sudoku.easyLoop] at h
      by_cases hi : i < s.cells.length
      · rw [if_pos hi] at h
        by_cases hv : (s.cellAt i).value ≠ 0
        · rw [if_pos hv] at h
          cases hrec : Sudoku.eliminate fuel s (s.cellAt i) with
          | ok s2 =>
              rw [hrec] at h
              dsimp only at h
              exact evolves_trans (eliminate_evolves hrec) (ih s2 (i + 1) s' h)
          | clash => rw [hrec] at h; dsimp only at h; cases h
          | fuelOut => rw [hrec] at h; dsimp only at h; cases h
          | err e => rw [hrec] at h; dsimp only at h; cases h
        · rw [if_neg hv] at h
          exact ih s (i + 1) s' h
      · rw [if_neg hi] at h
        cases h
        exact evolves_refl _

/-! ## The cascade never raises anything but `ClashException` -/

theorem elimLoop_not_err :
    ∀ (fuel : Nat) (s : Sudoku) (cell : Cell) (v : Int) (j : Nat) (e : PError),
      Sudoku.elimLoop fuel s cell v j ≠ .err e := by
  intro fuel
  induction fuel with
  | zero =>
      intro s cell v j e h
      simp [Sudoku.elimLoop] at h
  | succ fuel ih =>
      intro s cell v j e h
      rw [Sudoku.elimLoop] at h
      by_cases hj : j < s.cells.length
      · rw [if_pos hj] at h
        by_cases hceq : cellEq cell (s.cellAt j) = true
        · rw [if_pos hceq] at h
          exact ih s cell v (j + 1) e h
        · rw [if_neg hceq] at h
          by_cases hm : Cell.matchesCell cell (s.cellAt j) = true
          · rw [if_pos hm] at h
            rcases helim : (s.cellAt j).eliminate v with e2 | ⟨o2, ns⟩
            · rw [helim] at h
              dsimp only at h
              cases h
            · rw [helim] at h
              dsimp only at h
              by_cases hns : ns ≠ 0
              · rw [if_pos hns] at h
                cases hrec : Sudoku.elimLoop fuel ⟨s.cells.set j o2⟩ o2 ns 0 with
                | ok s3 =>
                    rw [hrec] at h
                    dsimp only at h
                    exact ih s3 cell v (j + 1) e h
                | clash => rw [hrec] at h; dsimp only at h; cases h
                | fuelOut => rw [hrec] at h; dsimp only at h; cases h
                | err e3 => exact absurd hrec (ih _ o2 ns 0 e3)
              · rw [if_neg hns] at h
                exact ih _ cell v (j + 1) e h
          · rw [if_neg hm] at h
            exact ih s cell v (j + 1) e h
      · rw [if_neg hj] at h
        cases h

theorem eliminate_not_err {fuel : Nat} {s : Sudoku} {cell : Cell} {e : PError} :
    Sudoku.eliminate fuel s cell ≠ .err e := by
  unfold Sudoku.eliminate
  split_ifs with h0
  · intro h; cases h
  · exact elimLoop_not_err fuel s cell cell.value 0 e

theorem easyLoop_not_err :
    ∀ (fuel : Nat) (s : Sudoku) (i : Nat) (e : PError),
      Sudoku.easyLoop fuel s i ≠ .err e := by
  intro fuel
  induction fuel with
  | zero =>
      intro s i e h
      simp [Sudoku.easyLoop] at h
  | succ fuel ih =>
      intro s i e h
      rw [Sudoku.easyLoop] at h
      by_cases hi : i < s.cells.length
      · rw [if_pos hi] at h
        by_cases hv : (s.cellAt i).value ≠ 0
        · rw [if_pos hv] at h
          cases hrec : Sudoku.eliminate fuel s (s.cellAt i) with
          | ok s2 =>
              rw [hrec] at h
              dsimp only at h
              exact ih s2 (i + 1) e h
          | clash => rw [hrec] at h; dsimp only at h; cases h
          | fuelOut => rw [hrec] at h; dsimp only at h; cases h
          | err e2 => exact absurd hrec eliminate_not_err
        · rw [if_neg hv] at h
          exact ih s (i + 1) e h
      · rw [if_neg hi] at h
        cases h

/-! ## Termination of the cascade: enough fuel never runs out -/

theorem getD_length_le {l1 l2 : List Cell}
    (hlen : l2.length = l1.length)
    (hpt : ∀ i, i < l1.length →
      ((l2.getD i default).possibilities.length
        ≤ (l1.getD i default).possibilities.length)) :
    (l2.map (fun c => c.possibilities.length)).sum
      ≤ (l1.map (fun c => c.possibilities.length)).sum := by
  induction l1 generalizing l2 with
  | nil =>
      cases l2 with
      | nil => simp
      | cons x xs => simp at hlen
  | cons x xs ih =>
      cases l2 with
      | nil => simp at hlen
      | cons y ys =>
          simp only [List.map, List.sum_cons]
          have h0 := hpt 0 (by simp)
          simp only [List.getD_cons_zero] at h0
          have ht : (ys.map (fun c => c.possibilities.length)).sum
              ≤ (xs.map (fun c => c.possibilities.length)).sum := by
            refine ih (by simpa using hlen) ?_
            intro i hi
            have := hpt (i + 1) (by simpa using Nat.succ_lt_succ hi)
            simpa [List.getD_cons_succ] using this
          omega

theorem totalPoss_mono {s t : Sudoku} (hev : evolves s t) :
    t.totalPoss ≤ s.totalPoss := by
  refine getD_length_le hev.1 ?_
  intro i hi
  exact (hev.2 i).2.2.2.1.length_le

/-! ## Fuel monotonicity: a settled result is stable under more fuel -/

theorem elimLoop_mono :
    ∀ (fuel fuel' : Nat) (s : Sudoku) (cell : Cell) (v : Int) (j : Nat),
      fuel ≤ fuel' → Sudoku.elimLoop fuel s cell v j ≠ .fuelOut →
      Sudoku.elimLoop fuel' s cell v j = Sudoku.elimLoop fuel s cell v j := by
  intro fuel
  induction fuel with
  | zero =>
      intro fuel' s cell v j hle h
      exact absurd (by simp [Sudoku.elimLoop]) h
  | succ fuel ih =>
      intro fuel' s cell v j hle h
      obtain ⟨f2, rfl⟩ : ∃ f2, fuel' = f2 + 1 := ⟨fuel' - 1, by omega⟩
      have hle2 : fuel ≤ f2 := by omega
      rw [Sudoku.elimLoop] at h
      conv_rhs => rw [Sudoku.elimLoop]
      conv_lhs => rw [Sudoku.elimLoop]
      by_cases hj : j < s.cells.length
      · rw [if_pos hj] at h ⊢
        rw [if_pos hj]
        by_cases hceq : cellEq cell (s.cellAt j) = true
        · rw [if_pos hceq] at h ⊢
          rw [if_pos hceq]
          exact ih f2 s cell v (j + 1) hle2 h
        · rw [if_neg hceq] at h ⊢
          rw [if_neg hceq]
          by_cases hm : Cell.matchesCell cell (s.cellAt j) = true
          · rw [if_pos hm] at h ⊢
            rw [if_pos hm]
            rcases helim : (s.cellAt j).eliminate v with e | ⟨o2, ns⟩
            · dsimp only
            · rw [helim] at h
              dsimp only at h ⊢
              by_cases hns : ns ≠ 0
              · rw [if_pos hns] at h ⊢
                rw [if_pos hns]
                have hdive : Sudoku.elimLoop fuel ⟨s.cells.set j o2⟩ o2 ns 0
                    ≠ .fuelOut := by
                  intro hfo
                  rw [hfo] at h
                  exact h rfl
                rw [ih f2 _ o2 ns 0 hle2 hdive]
                cases hrec : Sudoku.elimLoop fuel ⟨s.cells.set j o2⟩ o2 ns 0 with
                | ok s3 =>
                    rw [hrec] at h
                    dsimp only at h ⊢
                    exact ih f2 s3 cell v (j + 1) hle2 h
                | clash => rfl
                | fuelOut => exact absurd hrec hdive
                | err e => rfl
              · rw [if_neg hns] at h ⊢
                rw [if_neg hns]
                exact ih f2 _ cell v (j + 1) hle2 h
          · rw [if_neg hm] at h ⊢
            rw [if_neg hm]
            exact ih f2 s cell v (j + 1) hle2 h
      · rw [if_neg hj] at h ⊢
        rw [if_neg hj]

theorem eliminate_mono {fuel fuel' : Nat} {s : Sudoku} {cell : Cell}
    (hle : fuel ≤ fuel') (h : Sudoku.eliminate fuel s cell ≠ .fuelOut) :
    Sudoku.eliminate fuel' s cell = Sudoku.eliminate fuel s cell := by
  unfold Sudoku.eliminate at h ⊢
  split_ifs at h ⊢ with h0
  · rfl
  · exact elimLoop_mono fuel fuel' s cell cell.value 0 hle h

/-! ## Termination: some fuel suffices, for every state -/

theorem elimLoop_halts :
    ∀ (μ : Nat) (s : Sudoku) (cell : Cell) (v : Int) (j k : Nat),
      s.totalPoss ≤ μ → s.cells.length ≤ j + k →
      ∃ fuel, Sudoku.elimLoop fuel s cell v j ≠ .fuelOut := by
  intro μ
  induction μ using Nat.strong_induction_on with
  | _ μ ihμ =>
    intro s cell v j k
    induction k generalizing s j with
    | zero =>
        intro hμ hk
        refine ⟨1, ?_⟩
        rw [Sudoku.elimLoop, if_neg (by omega : ¬ j < s.cells.length)]
        simp
    | succ k ihk =>
        intro hμ hk
        by_cases hj : j < s.cells.length
        · by_cases hceq : cellEq cell (s.cellAt j) = true
          · obtain ⟨F, hF⟩ := ihk s (j + 1) hμ (by omega)
            refine ⟨F + 1, ?_⟩
            rw [Sudoku.elimLoop, if_pos hj, if_pos hceq]
            exact hF
          · by_cases hm : Cell.matchesCell cell (s.cellAt j) = true
            · rcases helim : (s.cellAt j).eliminate v with e | ⟨o2, ns⟩
              · refine ⟨1, ?_⟩
                rw [Sudoku.elimLoop, if_pos hj, if_neg hceq, if_pos hm, helim]
                simp
              · obtain ⟨-, -, -, hposs, -, hrval⟩ := Cell.eliminate_ok_inv helim
                have htp := @totalPoss_set s j o2 hj
                by_cases hns : ns ≠ 0
                · have hv : v ∈ (s.cellAt j).possibilities := by
                    by_contra hvn
                    rw [if_neg hvn] at hrval
                    exact hns hrval
                  have hpos : 0 < (s.cellAt j).possibilities.length :=
                    List.length_pos.mpr
                      (by intro hnil; rw [hnil] at hv; cases hv)
                  have hL : (s.cellAt j).possibilities.length
                      = o2.possibilities.length + 1 := by
                    rw [hposs, List.length_erase_of_mem hv]
                    omega
                  have hμ2 : (⟨s.cells.set j o2⟩ : Sudoku).totalPoss < μ := by
                    omega
                  obtain ⟨F1, hF1⟩ :=
                    ihμ (⟨s.cells.set j o2⟩ : Sudoku).totalPoss hμ2
                      ⟨s.cells.set j o2⟩ o2 ns 0
                      (⟨s.cells.set j o2⟩ : Sudoku).cells.length
                      (le_refl _) (by omega)
                  cases hrec : Sudoku.elimLoop F1 ⟨s.cells.set j o2⟩ o2 ns 0 with
                  | fuelOut => exact absurd hrec hF1
                  | clash =>
                      refine ⟨F1 + 1, ?_⟩
                      rw [Sudoku.elimLoop, if_pos hj, if_neg hceq, if_pos hm,
                        helim]
                      dsimp only
                      rw [if_pos hns, hrec]
                      simp
                  | err e =>
                      refine ⟨F1 + 1, ?_⟩
                      rw [Sudoku.elimLoop, if_pos hj, if_neg hceq, if_pos hm,
                        helim]
                      dsimp only
                      rw [if_pos hns, hrec]
                      simp
                  | ok s3 =>
                      have hev23 := elimLoop_evolves _ _ _ _ _ _ hrec
                      have hn3 : s3.cells.length = s.cells.length := by
                        rw [hev23.1]; simp
                      have hμ3 : s3.totalPoss ≤ μ :=
                        le_trans (totalPoss_mono hev23) (by omega)
                      obtain ⟨F2, hF2⟩ := ihk s3 (j + 1) hμ3 (by omega)
                      refine ⟨max F1 F2 + 1, ?_⟩
                      rw [Sudoku.elimLoop, if_pos hj, if_neg hceq, if_pos hm,
                        helim]
                      dsimp only
                      rw [if_pos hns]
                      rw [elimLoop_mono F1 (max F1 F2) _ _ _ _
                        (le_max_left _ _) (by rw [hrec]; simp), hrec]
                      dsimp only
                      rw [elimLoop_mono F2 (max F1 F2) _ _ _ _
                        (le_max_right _ _) hF2]
                      exact hF2
                · have hL2 : o2.possibilities.length
                      ≤ (s.cellAt j).possibilities.length := by
                    rw [hposs]; exact (List.erase_sublist _ _).length_le
                  have hμ2 : (⟨s.cells.set j o2⟩ : Sudoku).totalPoss ≤ μ := by
                    omega
                  obtain ⟨F, hF⟩ := ihk ⟨s.cells.set j o2⟩ (j + 1) hμ2
                    (by simpa using (by omega : s.cells.length ≤ (j + 1) + k))
                  refine ⟨F + 1, ?_⟩
                  rw [Sudoku.elimLoop, if_pos hj, if_neg hceq, if_pos hm, helim]
                  dsimp only
                  rw [if_neg hns]
                  exact hF
            · obtain ⟨F, hF⟩ := ihk s (j + 1) hμ (by omega)
              refine ⟨F + 1, ?_⟩
              rw [Sudoku.elimLoop, if_pos hj, if_neg hceq, if_neg hm]
              exact hF
        · refine ⟨1, ?_⟩
          rw [Sudoku.elimLoop, if_neg hj]
          simp

theorem eliminate_halts (s : Sudoku) (cell : Cell) :
    ∃ fuel, Sudoku.eliminate fuel s cell ≠ .fuelOut := by
  by_cases h0 : cell.value = 0
  · refine ⟨0, ?_⟩
    unfold Sudoku.eliminate
    rw [if_pos h0]
    simp
  · obtain ⟨F, hF⟩ := elimLoop_halts s.totalPoss s cell cell.value 0
      s.cells.length (le_refl _) (by omega)
    refine ⟨F, ?_⟩
    unfold Sudoku.eliminate
    rw [if_neg h0]
    exact hF

theorem easyLoop_mono :
    ∀ (fuel fuel' : Nat) (s : Sudoku) (i : Nat),
      fuel ≤ fuel' → Sudoku.easyLoop fuel s i ≠ .fuelOut →
      Sudoku.easyLoop fuel' s i = Sudoku.easyLoop fuel s i := by
  intro fuel
  induction fuel with
  | zero =>
      intro fuel' s i hle h
      exact absurd (by simp [Sudoku.easyLoop]) h
  | succ fuel ih =>
      intro fuel' s i hle h
      obtain ⟨f2, rfl⟩ : ∃ f2, fuel' = f2 + 1 := ⟨fuel' - 1, by omega⟩
      have hle2 : fuel ≤ f2 := by omega
      rw [Sudoku.easyLoop] at h
      conv_rhs => rw [Sudoku.easyLoop]
      conv_lhs => rw [Sudoku.easyLoop]
      by_cases hi : i < s.cells.length
      · rw [if_pos hi] at h ⊢
        rw [if_pos hi]
        by_cases hv : (s.cellAt i).value ≠ 0
        · rw [if_pos hv] at h ⊢
          rw [if_pos hv]
          have hdive : Sudoku.eliminate fuel s (s.cellAt i) ≠ .fuelOut := by
            intro hfo
            rw [hfo] at h
            exact h rfl
          rw [eliminate_mono hle2 hdive]
          cases hrec : Sudoku.eliminate fuel s (s.cellAt i) with
          | ok s2 =>
              rw [hrec] at h
              dsimp only at h ⊢
              exact ih f2 s2 (i + 1) hle2 h
          | clash => rfl
          | fuelOut => exact absurd hrec hdive
          | err e => rfl
        · rw [if_neg hv] at h ⊢
          rw [if_neg hv]
          exact ih f2 s (i + 1) hle2 h
      · rw [if_neg hi] at h ⊢
        rw [if_neg hi]

theorem easyLoop_halts :
    ∀ (k : Nat) (s : Sudoku) (i : Nat), s.cells.length ≤ i + k →
      ∃ fuel, Sudoku.easyLoop fuel s i ≠ .fuelOut := by
  intro k
  induction k with
  | zero =>
      intro s i hk
      refine ⟨1, ?_⟩
      rw [Sudoku.easyLoop, if_neg (by omega : ¬ i < s.cells.length)]
      simp
  | succ k ih =>
      intro s i hk
      by_cases hi : i < s.cells.length
      · by_cases hv : (s.cellAt i).value ≠ 0
        · obtain ⟨F1, hF1⟩ := eliminate_halts s (s.cellAt i)
          cases hrec : Sudoku.eliminate F1 s (s.cellAt i) with
          | fuelOut => exact absurd hrec hF1
          | clash =>
              refine ⟨F1 + 1, ?_⟩
              rw [Sudoku.easyLoop, if_pos hi, if_pos hv, hrec]
              simp
          | err e =>
              refine ⟨F1 + 1, ?_⟩
              rw [Sudoku.easyLoop, if_pos hi, if_pos hv, hrec]
              simp
          | ok s2 =>
              have hev := eliminate_evolves hrec
              obtain ⟨F2, hF2⟩ := ih s2 (i + 1) (by rw [hev.1]; omega)
              refine ⟨max F1 F2 + 1, ?_⟩
              rw [Sudoku.easyLoop, if_pos hi, if_pos hv]
              rw [eliminate_mono (le_max_left F1 F2) (by rw [hrec]; simp),
                hrec]
              dsimp only
              rw [easyLoop_mono F2 (max F1 F2) s2 (i + 1)
                (le_max_right _ _) hF2]
              exact hF2
        · obtain ⟨F, hF⟩ := ih s (i + 1) (by omega)
          refine ⟨F + 1, ?_⟩
          rw [Sudoku.easyLoop, if_pos hi, if_neg hv]
          exact hF
      · refine ⟨1, ?_⟩
        rw [Sudoku.easyLoop, if_neg hi]
        simp

theorem easyStep_mono {fuel fuel' : Nat} {s : Sudoku}
    (hle : fuel ≤ fuel') (h : Sudoku.easyStep fuel s ≠ .fuelOut) :
    Sudoku.easyStep fuel' s = Sudoku.easyStep fuel s := by
  unfold Sudoku.easyStep at h ⊢
  split_ifs at h ⊢ with hsolved
  · rfl
  · have hloop : Sudoku.easyLoop fuel s 0 ≠ .fuelOut := by
      intro hfo
      rw [hfo] at h
      exact h rfl
    rw [easyLoop_mono fuel fuel' s 0 hle hloop]

theorem easyStep_halts (s : Sudoku) :
    ∃ fuel, Sudoku.easyStep fuel s ≠ .fuelOut := by
  by_cases hsolved : s.is_solved
  · refine ⟨0, ?_⟩
    unfold Sudoku.easyStep
    rw [if_pos hsolved]
    simp
  · obtain ⟨F, hF⟩ := easyLoop_halts s.cells.length s 0 (by omega)
    refine ⟨F, ?_⟩
    unfold Sudoku.easyStep
    rw [if_neg hsolved]
    cases hrec : Sudoku.easyLoop F s 0 with
    | ok s2 =>
        dsimp only
        split_ifs
        · simp
        · cases pyMin s2.candList <;> simp
    | clash => simp
    | fuelOut => exact absurd hrec hF
    | err e => simp

/-! ## A determined duplicate pair forces the elimination pass to clash -/

theorem elimLoop_dup_not_ok :
    ∀ (fuel : Nat) (s : Sudoku) (cell : Cell) (v : Int) (j kdx : Nat)
      (s' : Sudoku),
      j ≤ kdx → kdx < s.cells.length →
      cellEq cell (s.cellAt kdx) = false →
      Cell.matchesCell cell (s.cellAt kdx) = true →
      (s.cellAt kdx).possibilities = [v] →
      Sudoku.elimLoop fuel s cell v j ≠ .ok s' := by
  intro fuel
  induction fuel with
  | zero =>
      intro s cell v j kdx s' hjk hk hne hm hp h
      simp [Sudoku.elimLoop] at h
  | succ fuel ih =>
      intro s cell v j kdx s' hjk hk hne hm hp h
      have hj : j < s.cells.length := by omega
      rw [Sudoku.elimLoop, if_pos hj] at h
      by_cases hceq : cellEq cell (s.cellAt j) = true
      · rw [if_pos hceq] at h
        have hjne : j ≠ kdx := by
          intro hh
          rw [hh] at hceq
          rw [hceq] at hne
          cases hne
        exact ih s cell v (j + 1) kdx s' (by omega) hk hne hm hp h
      · rw [if_neg hceq] at h
        by_cases hmj : Cell.matchesCell cell (s.cellAt j) = true
        · rw [if_pos hmj] at h
          by_cases hjk2 : j = kdx
          · subst hjk2
            have : (s.cellAt j).eliminate v = .error .clash := by
              unfold Cell.eliminate
              rw [if_pos hp]
            rw [this] at h
            dsimp only at h
            cases h
          · rcases helim : (s.cellAt j).eliminate v with e | ⟨o2, ns⟩
            · rw [helim] at h
              dsimp only at h
              cases h
            · rw [helim] at h
              dsimp only at h
              obtain ⟨hr, hc, hg, hposs, -, -⟩ := Cell.eliminate_ok_inv helim
              have hstep : evolves s ⟨s.cells.set j o2⟩ := by
                refine evolves_set hj hr hc hg ?_ ?_
                · rw [hposs]; exact List.erase_sublist v _
                · exact Cell.eliminate_ok_nonempty helim
              have hk2 : kdx < (⟨s.cells.set j o2⟩ : Sudoku).cells.length := by
                simpa using hk
              have hat2 : (⟨s.cells.set j o2⟩ : Sudoku).cellAt kdx
                  = s.cellAt kdx := cellAt_set_ne (fun hh => hjk2 hh.symm)
              by_cases hns : ns ≠ 0
              · rw [if_pos hns] at h
                cases hrec : Sudoku.elimLoop fuel ⟨s.cells.set j o2⟩ o2 ns 0 with
                | ok s3 =>
                    rw [hrec] at h
                    dsimp only at h
                    have hev3 := elimLoop_evolves _ _ _ _ _ _ hrec
                    have hev : evolves s s3 := evolves_trans hstep hev3
                    refine ih s3 cell v (j + 1) kdx s' (by omega)
                      (by rw [hev.1]; omega) ?_ ?_ ?_ h
                    · rw [cellEq_congr rfl rfl ((hev3.2 kdx).1)
                        ((hev3.2 kdx).2.1), hat2]
                      exact hne
                    · rw [matchesCell_congr rfl rfl rfl ((hev3.2 kdx).1)
                        ((hev3.2 kdx).2.1) ((hev3.2 kdx).2.2.1), hat2]
                      exact hm
                    · refine singleton_stable hev3 ?_
                      rw [hat2]
                      exact hp
                | clash => rw [hrec] at h; dsimp only at h; cases h
                | fuelOut => rw [hrec] at h; dsimp only at h; cases h
                | err e => rw [hrec] at h; dsimp only at h; cases h
              · rw [if_neg hns] at h
                refine ih _ cell v (j + 1) kdx s' (by omega) hk2 ?_ ?_ ?_ h
                · rw [hat2]; exact hne
                · rw [hat2]; exact hm
                · rw [hat2]; exact hp
        · rw [if_neg hmj] at h
          have hjne : j ≠ kdx := by
            intro hh
            rw [hh] at hmj
            exact hmj hm
          exact ih s cell v (j + 1) kdx s' (by omega) hk hne hm hp h

theorem easyLoop_dup_not_ok :
    ∀ (fuel : Nat) (s : Sudoku) (i i1 i2 : Nat) (v : Int) (s' : Sudoku),
      i ≤ i1 → i1 < s.cells.length → i2 < s.cells.length →
      cellEq (s.cellAt i1) (s.cellAt i2) = false →
      Cell.matchesCell (s.cellAt i1) (s.cellAt i2) = true →
      (s.cellAt i1).possibilities = [v] →
      (s.cellAt i2).possibilities = [v] →
      v ≠ 0 →
      Sudoku.easyLoop fuel s i ≠ .ok s' := by
  intro fuel
  induction fuel with
  | zero =>
      intro s i i1 i2 v s' hii1 h1 h2 hne hm hp1 hp2 hv h
      simp [Sudoku.easyLoop] at h
  | succ fuel ih =>
      intro s i i1 i2 v s' hii1 h1 h2 hne hm hp1 hp2 hv h
      have hi : i < s.cells.length := by omega
      rw [Sudoku.easyLoop, if_pos hi] at h
      by_cases hval : (s.cellAt i).value ≠ 0
      · rw [if_pos hval] at h
        by_cases hi1 : i = i1
        · subst hi1
          have hveq : (s.cellAt i).value = v := Cell.value_of_singleton hp1
          have : ∀ s2, Sudoku.eliminate fuel s (s.cellAt i) ≠ .ok s2 := by
            intro s2
            unfold Sudoku.eliminate
            rw [if_neg (by rw [hveq]; exact hv), hveq]
            exact elimLoop_dup_not_ok fuel s (s.cellAt i) v 0 i2 s2
              (by omega) h2 hne hm hp2
          cases hrec : Sudoku.eliminate fuel s (s.cellAt i) with
          | ok s2 => exact absurd hrec (this s2)
          | clash => rw [hrec] at h; dsimp only at h; cases h
          | fuelOut => rw [hrec] at h; dsimp only at h; cases h
          | err e => rw [hrec] at h; dsimp only at h; cases h
        · cases hrec : Sudoku.eliminate fuel s (s.cellAt i) with
          | ok s2 =>
              rw [hrec] at h
              dsimp only at h
              have hev := eliminate_evolves hrec
              refine ih s2 (i + 1) i1 i2 v s' (by omega)
                (by rw [hev.1]; omega) (by rw [hev.1]; omega) ?_ ?_
                (singleton_stable hev hp1) (singleton_stable hev hp2) hv h
              · rw [cellEq_evolves hev i1 i2]; exact hne
              · rw [matchesCell_evolves hev i1 i2]; exact hm
          | clash => rw [hrec] at h; dsimp only at h; cases h
          | fuelOut => rw [hrec] at h; dsimp only at h; cases h
          | err e => rw [hrec] at h; dsimp only at h; cases h
      · rw [if_neg hval] at h
        have hi1 : i ≠ i1 := by
          intro hh
          subst hh
          exact hval (by rw [Cell.value_of_singleton hp1]; exact hv)
        exact ih s (i + 1) i1 i2 v s' (by omega) h1 h2 hne hm hp1 hp2 hv h

theorem easyStep_dup {s : Sudoku} {i1 i2 : Nat} {v : Int}
    (hsolved : s.is_solved = false)
    (h1 : i1 < s.cells.length) (h2 : i2 < s.cells.length)
    (hne : cellEq (s.cellAt i1) (s.cellAt i2) = false)
    (hm : Cell.matchesCell (s.cellAt i1) (s.cellAt i2) = true)
    (hp1 : (s.cellAt i1).possibilities = [v])
    (hp2 : (s.cellAt i2).possibilities = [v])
    (hv : v ≠ 0) :
    ∀ fuel, Sudoku.easyStep fuel s = .clash ∨
      Sudoku.easyStep fuel s = .fuelOut := by
  intro fuel
  unfold Sudoku.easyStep
  rw [if_neg (by rw [hsolved]; exact Bool.false_ne_true)]
  cases hrec : Sudoku.easyLoop fuel s 0 with
  | ok s2 =>
      exact absurd hrec
        (easyLoop_dup_not_ok fuel s 0 i1 i2 v s2 (by omega) h1 h2 hne hm
          hp1 hp2 hv)
  | clash => left; rfl
  | fuelOut => right; rfl
  | err e => exact absurd hrec (easyLoop_not_err fuel s 0 e)

theorem solve_dup_never_ok {s : Sudoku} {i1 i2 : Nat} {v : Int}
    (hsolved : s.is_solved = false)
    (h1 : i1 < s.cells.length) (h2 : i2 < s.cells.length)
    (hne : cellEq (s.cellAt i1) (s.cellAt i2) = false)
    (hm : Cell.matchesCell (s.cellAt i1) (s.cellAt i2) = true)
    (hp1 : (s.cellAt i1).possibilities = [v])
    (hp2 : (s.cellAt i2).possibilities = [v])
    (hv : v ≠ 0) :
    ∀ fuel s', Sudoku.solve fuel s ≠ .ok s' := by
  intro fuel s' h
  cases fuel with
  | zero => simp [Sudoku.solve] at h
  | succ fuel =>
      rw [Sudoku.solve] at h
      rcases easyStep_dup hsolved h1 h2 hne hm hp1 hp2 hv fuel with hc | hc <;>
        rw [hc] at h <;> cases h

theorem solve_dup_clash {s : Sudoku} {i1 i2 : Nat} {v : Int}
    (hsolved : s.is_solved = false)
    (h1 : i1 < s.cells.length) (h2 : i2 < s.cells.length)
    (hne : cellEq (s.cellAt i1) (s.cellAt i2) = false)
    (hm : Cell.matchesCell (s.cellAt i1) (s.cellAt i2) = true)
    (hp1 : (s.cellAt i1).possibilities = [v])
    (hp2 : (s.cellAt i2).possibilities = [v])
    (hv : v ≠ 0) :
    ∃ F, ∀ fuel, F ≤ fuel → Sudoku.solve fuel s = .clash := by
  obtain ⟨F0, hF0⟩ := easyStep_halts s
  have hstep : Sudoku.easyStep F0 s = .clash := by
    rcases easyStep_dup hsolved h1 h2 hne hm hp1 hp2 hv F0 with hc | hc
    · exact hc
    · exact absurd hc hF0
  refine ⟨F0 + 1, fun fuel hle => ?_⟩
  obtain ⟨f2, rfl⟩ : ∃ f2, fuel = f2 + 1 := ⟨fuel - 1, by omega⟩
  rw [Sudoku.solve, easyStep_mono (show F0 ≤ f2 by omega) (by rw [hstep]; simp),
    hstep]

/-! ## Indexing the cells built from a validated array -/

theorem getD_append_lt {α : Type} [Inhabited α] (l1 l2 : List α) (n : Nat)
    (h : n < l1.length) :
    (l1 ++ l2).getD n default = l1.getD n default := by
  simp [List.getD, List.getElem?_append, h]

theorem getD_append_ge {α : Type} [Inhabited α] (l1 l2 : List α) (n : Nat)
    (h : l1.length ≤ n) :
    (l1 ++ l2).getD n default = l2.getD (n - l1.length) default := by
  simp [List.getD, List.getElem?_append, Nat.not_lt.mpr h]

theorem rowCells_length (order rowIdx : Nat) :
    ∀ (colIdx : Nat) (row : List Int),
      (rowCells order rowIdx colIdx row).length = row.length := by
  intro colIdx row
  induction row generalizing colIdx with
  | nil => simp [rowCells]
  | cons v rest ih => simp [rowCells, ih]

theorem rowCells_getD (order rowIdx : Nat) :
    ∀ (row : List Int) (colIdx k : Nat), k < row.length →
      (rowCells order rowIdx colIdx row).getD k default
        = Cell.initInt rowIdx (colIdx + k) order (row.getD k 0) := by
  intro row
  induction row with
  | nil => intro colIdx k hk; simp at hk
  | cons v rest ih =>
      intro colIdx k hk
      cases k with
      | zero => simp [rowCells]
      | succ k =>
          have := ih (colIdx + 1) k (by simpa using hk)
          rw [rowCells]
          simp only [List.getD_cons_succ]
          rw [this]
          have harith : colIdx + 1 + k = colIdx + (k + 1) := by omega
          rw [harith]

theorem cellsFromArrAux_length (order : Nat) (m : Nat) :
    ∀ (rows : List (List Int)) (r0 : Nat),
      (∀ row ∈ rows, row.length = m) →
      (cellsFromArrAux order r0 rows).length = rows.length * m := by
  intro rows
  induction rows with
  | nil => intro r0 hrows; simp [cellsFromArrAux]
  | cons row rest ih =>
      intro r0 hrows
      rw [cellsFromArrAux]
      simp only [List.length_append, rowCells_length]
      rw [hrows row (by simp), ih (r0 + 1) (fun rw2 hrw2 => hrows rw2 (by simp [hrw2]))]
      simp [Nat.succ_mul]
      omega

theorem cellsFromArrAux_getD (order : Nat) (m : Nat) :
    ∀ (rows : List (List Int)) (r0 r c : Nat),
      (∀ row ∈ rows, row.length = m) →
      r < rows.length → c < m →
      (cellsFromArrAux order r0 rows).getD (r * m + c) default
        = Cell.initInt (r0 + r) c order ((rows.getD r []).getD c 0) := by
  intro rows
  induction rows with
  | nil => intro r0 r c hrows hr hc; simp at hr
  | cons row rest ih =>
      intro r0 r c hrows hr hc
      have hrowlen : row.length = m := hrows row (by simp)
      rw [cellsFromArrAux]
      cases r with
      | zero =>
          rw [getD_append_lt _ _ _ (by rw [rowCells_length, hrowlen]; omega)]
          have := rowCells_getD order r0 row 0 c (by omega)
          simpa using this
      | succ r =>
          have hlen1 : (rowCells order r0 0 row).length = m := by
            rw [rowCells_length, hrowlen]
          have hge : (rowCells order r0 0 row).length ≤ (r + 1) * m + c := by
            rw [hlen1]
            calc m ≤ (r + 1) * m := by
                  have := Nat.le_mul_of_pos_left m (show 0 < r + 1 by omega)
                  omega
              _ ≤ (r + 1) * m + c := by omega
          rw [getD_append_ge _ _ _ hge]
          have hidx : (r + 1) * m + c - (rowCells order r0 0 row).length
              = r * m + c := by
            rw [hlen1, Nat.succ_mul]
            omega
          rw [hidx]
          have := ih (r0 + 1) r c
            (fun rw2 hrw2 => hrows rw2 (by simp [hrw2])) (by simpa using hr) hc
          rw [this]
          have harith : r0 + 1 + r = r0 + (r + 1) := by omega
          rw [harith]
          simp

theorem getD_mem_any {α : Type} {l : List α} {i : Nat}
    (h : i < l.length) (d : α) : l.getD i d ∈ l := by
  simp [List.getD, List.getElem?_eq_getElem h]

theorem getD_mem {α : Type} [Inhabited α] {l : List α} {i : Nat}
    (h : i < l.length) : l.getD i default ∈ l :=
  getD_mem_any h default

theorem validate_ok_inv {arr : List (List Int)} {order : Nat}
    (h : validate_array arr = .ok order) :
    order * order = arr.length ∧
    (∀ row ∈ arr, row.length = arr.length ∧
      ∀ v ∈ row, 0 ≤ v ∧ v ≤ ((order ^ 2 : Nat) : Int)) := by
  unfold validate_array at h
  dsimp only at h
  split_ifs at h with h1 h2
  · cases h
    refine ⟨by omega, ?_⟩
    intro row hrow
    have := List.all_eq_true.mp h2 row hrow
    simp only [Bool.and_eq_true, decide_eq_true_eq, List.all_eq_true] at this
    exact ⟨this.1, fun v hv => (this.2 v hv : 0 ≤ v ∧ _)⟩

theorem init_ok_inv {arr : List (List Int)} {S : Sudoku}
    (h : Sudoku.init arr = .ok S) :
    ∃ order, validate_array arr = .ok order ∧
      S = ⟨cells_from_arr arr order⟩ := by
  unfold Sudoku.init at h
  cases hval : validate_array arr with
  | error e => rw [hval] at h; cases h
  | ok order =>
      rw [hval] at h
      cases h
      exact ⟨order, rfl, rfl⟩

theorem initSudoku_length {arr : List (List Int)} {order : Nat}
    (hval : validate_array arr = .ok order) :
    (⟨cells_from_arr arr order⟩ : Sudoku).cells.length
      = arr.length * arr.length := by
  obtain ⟨-, hrows⟩ := validate_ok_inv hval
  show (cells_from_arr arr order).length = arr.length * arr.length
  rw [cells_from_arr,
    cellsFromArrAux_length order arr.length arr 0
      (fun row hrow => (hrows row hrow).1)]

theorem initSudoku_cellAt {arr : List (List Int)} {order : Nat}
    (hval : validate_array arr = .ok order) {r c : Nat}
    (hr : r < arr.length) (hc : c < arr.length) :
    (⟨cells_from_arr arr order⟩ : Sudoku).cellAt (r * arr.length + c)
      = Cell.initInt r c order ((arr.getD r []).getD c 0) := by
  obtain ⟨-, hrows⟩ := validate_ok_inv hval
  have := cellsFromArrAux_getD order arr.length arr 0 r c
    (fun row hrow => (hrows row hrow).1) hr hc
  simpa [Sudoku.cellAt, cells_from_arr] using this

theorem fullRange_length (order : Nat) :
    (fullRange order).length = order ^ 2 := by
  rw [fullRange, List.length_map, List.length_range]

theorem initInt_poss_of_ne {r c order : Nat} {v : Int} (h : v ≠ 0) :
    (Cell.initInt r c order v).possibilities = [v] := by
  simp [Cell.initInt, h]

theorem initInt_poss_of_zero {r c order : Nat} :
    (Cell.initInt r c order 0).possibilities = fullRange order := by
  simp [Cell.initInt]

theorem cellEq_initInt_false {r1 c1 r2 c2 order1 order2 : Nat} {v1 v2 : Int}
    (h : r1 ≠ r2 ∨ c1 ≠ c2) :
    cellEq (Cell.initInt r1 c1 order1 v1) (Cell.initInt r2 c2 order2 v2)
      = false := by
  simp only [cellEq, Cell.initInt]
  rcases h with h | h <;> simp [h]

theorem matchesCell_initInt_true {r1 c1 r2 c2 order : Nat} {v1 v2 : Int}
    (h : r1 = r2 ∨ c1 = c2 ∨
      (r1 / order, c1 / order) = (r2 / order, c2 / order)) :
    Cell.matchesCell (Cell.initInt r1 c1 order v1)
      (Cell.initInt r2 c2 order v2) = true := by
  simp only [Cell.matchesCell, Cell.initInt]
  rcases h with h | h | h <;> simp [h]

theorem rowMajor_lt {r c L : Nat} (hr : r < L) (hc : c < L) :
    r * L + c < L * L :=
  calc r * L + c < r * L + L := by omega
    _ = (r + 1) * L := by ring
    _ ≤ L * L := Nat.mul_le_mul_right L (by omega)

theorem is_solved_false_of_cell {s : Sudoku} {idx : Nat}
    (h : idx < s.cells.length) (hv : (s.cellAt idx).value = 0) :
    s.is_solved = false := by
  cases hb : s.is_solved with
  | false => rfl
  | true =>
      exfalso
      have hmem : s.cellAt idx ∈ s.cells := getD_mem h
      have := List.all_eq_true.mp hb _ hmem
      simp [hv] at this

theorem pair_ne_split {r1 c1 r2 c2 : Nat} (h : (r1, c1) ≠ (r2, c2)) :
    r1 ≠ r2 ∨ c1 ≠ c2 := by
  by_contra hc
  push_neg at hc
  exact h (by rw [hc.1, hc.2])

/-- The state-level facts produced by a duplicated pair of givens plus one
empty cell in a validated grid. -/
theorem dup_state_facts {arr : List (List Int)} {order : Nat}
    (hval : validate_array arr = .ok order)
    (hdup : dupGivens arr order)
    (hempty : ∃ r0 c0, r0 < arr.length ∧ c0 < arr.length ∧
      (arr.getD r0 []).getD c0 0 = 0) :
    ∃ i1 i2 v,
      (⟨cells_from_arr arr order⟩ : Sudoku).is_solved = false ∧
      i1 < (⟨cells_from_arr arr order⟩ : Sudoku).cells.length ∧
      i2 < (⟨cells_from_arr arr order⟩ : Sudoku).cells.length ∧
      cellEq ((⟨cells_from_arr arr order⟩ : Sudoku).cellAt i1)
        ((⟨cells_from_arr arr order⟩ : Sudoku).cellAt i2) = false ∧
      Cell.matchesCell ((⟨cells_from_arr arr order⟩ : Sudoku).cellAt i1)
        ((⟨cells_from_arr arr order⟩ : Sudoku).cellAt i2) = true ∧
      ((⟨cells_from_arr arr order⟩ : Sudoku).cellAt i1).possibilities = [v] ∧
      ((⟨cells_from_arr arr order⟩ : Sudoku).cellAt i2).possibilities = [v] ∧
      v ≠ 0 := by
  obtain ⟨r1, c1, r2, c2, v, hr1, hc1, hr2, hc2, hpair, hconf, hv, he1, he2⟩ :=
    hdup
  obtain ⟨r0, c0, hr0, hc0, he0⟩ := hempty
  obtain ⟨hsq, hrows⟩ := validate_ok_inv hval
  have hc1L : c1 < arr.length := by
    have := (hrows _ (getD_mem_any hr1 [])).1
    omega
  have hc2L : c2 < arr.length := by
    have := (hrows _ (getD_mem_any hr2 [])).1
    omega
  have hL2 : 2 ≤ arr.length := by
    by_contra hL
    have hr1z : r1 = 0 := by omega
    have hr2z : r2 = 0 := by omega
    have hc1z : c1 = 0 := by omega
    have hc2z : c2 = 0 := by omega
    exact hpair (by rw [hr1z, hr2z, hc1z, hc2z])
  have hlen := initSudoku_length hval
  refine ⟨r1 * arr.length + c1, r2 * arr.length + c2, v, ?_, ?_, ?_, ?_, ?_,
    ?_, ?_, hv⟩
  · -- not solved: the empty cell has value 0
    refine @is_solved_false_of_cell _ (r0 * arr.length + c0)
      (by rw [hlen]; exact rowMajor_lt hr0 hc0) ?_
    rw [initSudoku_cellAt hval hr0 hc0, he0]
    refine Cell.value_zero_of_not_singleton ?_
    intro w hw
    have := congrArg List.length hw
    rw [initInt_poss_of_zero, fullRange_length] at this
    simp at this
    have : order * order = 1 := by
      have hp2 : order ^ 2 = order * order := by ring
      omega
    omega
  · rw [hlen]; exact rowMajor_lt hr1 hc1L
  · rw [hlen]; exact rowMajor_lt hr2 hc2L
  · rw [initSudoku_cellAt hval hr1 hc1L, initSudoku_cellAt hval hr2 hc2L]
    exact cellEq_initInt_false (pair_ne_split hpair)
  · rw [initSudoku_cellAt hval hr1 hc1L, initSudoku_cellAt hval hr2 hc2L]
    exact matchesCell_initInt_true hconf
  · rw [initSudoku_cellAt hval hr1 hc1L, he1]
    exact initInt_poss_of_ne hv
  · rw [initSudoku_cellAt hval hr2 hc2L, he2]
    exact initInt_poss_of_ne hv

/-! ## Claim C1 -/

/-- C1, as stated, is false: `badFullArr` has two identical given values
in the same row (and is accepted by validation), yet `solve` does not
raise Clash — it returns the grid unchanged, conflicts included, because
`_easy_step` reports an already-complete grid as solved before any
propagation runs. -/
theorem c1_counterexample_complete_conflicting_grid :
    validate_array badFullArr = .ok 2 ∧
    Sudoku.init badFullArr = .ok badFullSudoku ∧
    dupGivens badFullArr 2 ∧
    Sudoku.solve 5 badFullSudoku = .ok badFullSudoku := by
  refine ⟨by decide, by decide, ⟨0, 0, 0, 1, 1, by decide⟩, by decide⟩

/-- C1 amended: for every validated input grid that has two identical
nonzero givens in the same row, column or block AND at least one empty
cell, `solve` never returns a grid, and with sufficient fuel it raises
Clash (`ClashException`), surfaced to the caller. -/
theorem c1_amended_dup_givens_solve_clash
    {arr : List (List Int)} {order : Nat} {S : Sudoku}
    (hinit : Sudoku.init arr = .ok S)
    (hval : validate_array arr = .ok order)
    (hdup : dupGivens arr order)
    (hempty : ∃ r0 c0, r0 < arr.length ∧ c0 < arr.length ∧
      (arr.getD r0 []).getD c0 0 = 0) :
    (∀ fuel s', Sudoku.solve fuel S ≠ .ok s') ∧
    (∃ F, ∀ fuel, F ≤ fuel → Sudoku.solve fuel S = .clash) := by
  obtain ⟨order2, hval2, hS⟩ := init_ok_inv hinit
  rw [hval] at hval2
  cases hval2
  subst hS
  obtain ⟨i1, i2, v, hsolved, h1, h2, hne, hm, hp1, hp2, hv⟩ :=
    dup_state_facts hval hdup hempty
  exact ⟨fun fuel s' => solve_dup_never_ok hsolved h1 h2 hne hm hp1 hp2 hv
      fuel s',
    solve_dup_clash hsolved h1 h2 hne hm hp1 hp2 hv⟩

/-- Witness for C1 (amended) at the concrete grid `badPartialArr`. -/
theorem c1_witness :
    (∀ fuel s', Sudoku.solve fuel badPartialSudoku ≠ .ok s') ∧
    (∃ F, ∀ fuel, F ≤ fuel → Sudoku.solve fuel badPartialSudoku = .clash) :=
  @c1_amended_dup_givens_solve_clash badPartialArr 2 badPartialSudoku
    (by decide) (by decide) ⟨0, 0, 0, 1, 1, by decide⟩ ⟨0, 2, by decide⟩

/-! ## Claim C8 -/

/-- C8: the propagation cascade (`Sudoku.eliminate`) terminates on every
puzzle state — some finite fuel (recursion budget) suffices, and every
larger budget also suffices, because every recursive cascade step strictly
shrinks the total candidate count, which is bounded below. -/
theorem c8_cascade_terminates (s : Sudoku) (cell : Cell) :
    ∃ F, ∀ fuel, F ≤ fuel → Sudoku.eliminate fuel s cell ≠ SRes.fuelOut := by
  obtain ⟨F, hF⟩ := eliminate_halts s cell
  refine ⟨F, fun fuel hle => ?_⟩
  rw [eliminate_mono hle hF]
  exact hF

/-- Witness for C8 at a concrete state and cell. -/
theorem c8_witness :
    ∃ F, ∀ fuel, F ≤ fuel →
      Sudoku.eliminate fuel badPartialSudoku (badPartialSudoku.cellAt 0)
        ≠ SRes.fuelOut :=
  c8_cascade_terminates badPartialSudoku (badPartialSudoku.cellAt 0)

/-! ## Claim C10 -/

/-- C10, as stated, is false: the empty grid is accepted by validation
(`0` rows, a perfect square), yet `progress` divides by the zero cell
count and raises `ZeroDivisionError`. -/
theorem c10_counterexample_empty_grid :
    validate_array ([] : List (List Int)) = .ok 0 ∧
    Sudoku.init ([] : List (List Int)) = .ok ⟨[]⟩ ∧
    Sudoku.progress ⟨[]⟩ = .error .zeroDivision := by
  refine ⟨by decide, by decide, by decide⟩

/-- C10 amended: for every puzzle state accepted by validation that has at
least one row (hence at least one cell), `progress` returns the
determined-cell count divided by the total cell count, and the result lies
in `[0, 1]`. -/
theorem c10_amended_progress {arr : List (List Int)} {S : Sudoku}
    (hinit : Sudoku.init arr = .ok S) (hne : arr ≠ []) :
    Sudoku.progress S
      = .ok ((S.solvedCount : ℚ) / (S.cells.length : ℚ)) ∧
    ∃ q : ℚ, Sudoku.progress S = .ok q ∧ 0 ≤ q ∧ q ≤ 1 := by
  obtain ⟨order, hval, hS⟩ := init_ok_inv hinit
  have hlen : S.cells.length = arr.length * arr.length := by
    rw [hS]; exact initSudoku_length hval
  have hpos : 0 < S.cells.length := by
    rw [hlen]
    have : 0 < arr.length := List.length_pos.mpr hne
    positivity
  have hprog : Sudoku.progress S
      = .ok ((S.solvedCount : ℚ) / (S.cells.length : ℚ)) := by
    unfold Sudoku.progress
    rw [if_neg (by omega)]
  refine ⟨hprog, ⟨_, hprog, ?_, ?_⟩⟩
  · positivity
  · have hle : S.solvedCount ≤ S.cells.length := List.length_filter_le _ _
    rw [div_le_one (by exact_mod_cast hpos)]
    exact_mod_cast hle

/-- Witness for C10 (amended) at a concrete grid. -/
theorem c10_witness :
    Sudoku.progress nearlySudoku
      = .ok ((nearlySudoku.solvedCount : ℚ) / (nearlySudoku.cells.length : ℚ)) ∧
    ∃ q : ℚ, Sudoku.progress nearlySudoku = .ok q ∧ 0 ≤ q ∧ q ≤ 1 :=
  @c10_amended_progress nearlyArr nearlySudoku (by decide) (by decide)

/-! ## Claim C3 -/

theorem fullRange_mem {order : Nat} {v : Int} (h : v ∈ fullRange order) :
    1 ≤ v ∧ v ≤ ((order ^ 2 : Nat) : Int) := by
  simp only [fullRange, List.mem_map, List.mem_range] at h
  obtain ⟨i, hi, rfl⟩ := h
  constructor
  · exact_mod_cast Nat.succ_le_succ (Nat.zero_le i)
  · exact_mod_cast Nat.succ_le_of_lt hi

/-- C3, as stated, is false: an absent (`None`) `value` argument — the
constructor's documented default — makes `int(value)` raise `TypeError`,
which the `except ValueError` handler does not catch, instead of producing
the full candidate range. -/
theorem c3_counterexample_none_raises :
    Cell.init 0 0 3 .vnone = .error .typeError ∧
    ∀ c, Cell.init 0 0 3 .vnone ≠ .ok c := by
  refine ⟨rfl, fun c h => ?_⟩
  simp [Cell.init] at h

/-- C3 amended: for positive order, `Cell` initialization sets the
candidate list to `[n]` for every nonzero integer `value` (or string
parsing to a nonzero integer) — including values outside `[1, order²]` —
and to the full range `{1, …, order²}` for `0`, a string parsing to `0`,
or an unparsable string; an absent (`None`) value raises `TypeError`
instead of being treated as unknown. -/
theorem c3_amended_cell_init (row col order : Nat) (horder : 0 < order) :
    Cell.init row col order .vnone = .error .typeError ∧
    (∀ n : Int, n ≠ 0 →
      Cell.init row col order (.vint n)
        = .ok ⟨row, col, (row / order, col / order), [n]⟩ ∧
      Cell.init row col order (.vstr (some n))
        = .ok ⟨row, col, (row / order, col / order), [n]⟩) ∧
    Cell.init row col order (.vint 0)
      = .ok ⟨row, col, (row / order, col / order), fullRange order⟩ ∧
    Cell.init row col order (.vstr (some 0))
      = .ok ⟨row, col, (row / order, col / order), fullRange order⟩ ∧
    Cell.init row col order (.vstr none)
      = .ok ⟨row, col, (row / order, col / order), fullRange order⟩ ∧
    (∀ v ∈ fullRange order, 1 ≤ v ∧ v ≤ ((order ^ 2 : Nat) : Int)) ∧
    (fullRange order).length = order ^ 2 := by
  have hord : order ≠ 0 := by omega
  refine ⟨rfl, ?_, ?_, ?_, ?_, fun v hv => fullRange_mem hv,
    fullRange_length order⟩
  · intro n hn
    constructor
    · simp [Cell.init, hord, Cell.initInt, hn]
    · simp [Cell.init, hord, Cell.initInt, hn]
  · simp [Cell.init, hord, Cell.initInt]
  · simp [Cell.init, hord, Cell.initInt]
  · simp [Cell.init, hord, Cell.initInt]

/-- Witness for C3 (amended) at concrete arguments. -/
theorem c3_witness :
    0 < 2 ∧
    Cell.init 1 2 2 .vnone = .error .typeError ∧
    Cell.init 1 2 2 (.vint 7)
      = .ok ⟨1, 2, (1 / 2, 2 / 2), [7]⟩ ∧
    Cell.init 1 2 2 (.vstr none)
      = .ok ⟨1, 2, (1 / 2, 2 / 2), fullRange 2⟩ := by
  have h := c3_amended_cell_init 1 2 2 (by decide)
  exact ⟨by decide, h.1, (h.2.1 7 (by decide)).1, h.2.2.2.2.1⟩

/-! ## Claim C4 -/

/-- C4: on a duplicate-free candidate list, `Cell.eliminate v` raises
`ClashError` iff the list is exactly `[v]`; otherwise it removes `v` if
present and returns the new single remaining value exactly when the
removal shrank the list to one element, signalling `0` in every other
case. -/
theorem c4_cell_eliminate_spec (c : Cell) (v : Int)
    (hnd : c.possibilities.Nodup) :
    ((∃ e, c.eliminate v = .error e) ↔ c.possibilities = [v]) ∧
    (∀ c2 r, c.eliminate v = .ok (c2, r) →
      c2.possibilities = c.possibilities.erase v ∧
      (v ∈ c.possibilities → c.possibilities.length = 2 →
        ∃ w, c2.possibilities = [w] ∧ r = w) ∧
      ((v ∉ c.possibilities ∨ c.possibilities.length ≠ 2) → r = 0)) := by
  constructor
  · constructor
    · intro ⟨e, he⟩
      exact (Cell.eliminate_error_iff.mp he).2
    · intro hp
      exact ⟨.clash, Cell.eliminate_error_iff.mpr ⟨rfl, hp⟩⟩
  · intro c2 r hok
    obtain ⟨-, -, -, hposs, hnv, hr⟩ := Cell.eliminate_ok_inv hok
    refine ⟨hposs, ?_, ?_⟩
    · intro hvmem hlen2
      have hlen1 : c2.possibilities.length = 1 := by
        rw [hposs, List.length_erase_of_mem hvmem, hlen2]
      rcases hp2 : c2.possibilities with - | ⟨w, - | ⟨x, l⟩⟩
      · rw [hp2] at hlen1; simp at hlen1
      · refine ⟨w, rfl, ?_⟩
        rw [hr, if_pos hvmem]
        exact Cell.value_of_singleton hp2
      · rw [hp2] at hlen1; simp at hlen1
    · intro hcase
      rcases hcase with hnm | hlen
      · rw [hr, if_neg hnm]
      · by_cases hvmem : v ∈ c.possibilities
        · rw [hr, if_pos hvmem]
          refine Cell.value_zero_of_not_singleton ?_
          intro w hw
          have h1 : c2.possibilities.length = 1 := by rw [hw]; rfl
          rw [hposs, List.length_erase_of_mem hvmem] at h1
          have hge1 : 1 ≤ c.possibilities.length :=
            List.length_pos.mpr (by intro hnil; rw [hnil] at hvmem; cases hvmem)
          have : c.possibilities.length = 2 := by omega
          exact hlen this
        · rw [hr, if_neg hvmem]

/-- Witness for C4 at the concrete cell with candidates `[1, 2]`. -/
theorem c4_witness :
    ((∃ e, Cell.eliminate ⟨0, 0, (0, 0), [1, 2]⟩ 2 = .error e) ↔
      ([1, 2] : List Int) = [2]) ∧
    (∀ c2 r, Cell.eliminate ⟨0, 0, (0, 0), [1, 2]⟩ 2 = .ok (c2, r) →
      c2.possibilities = ([1, 2] : List Int).erase 2 ∧
      ((2 : Int) ∈ ([1, 2] : List Int) → ([1, 2] : List Int).length = 2 →
        ∃ w, c2.possibilities = [w] ∧ r = w) ∧
      (((2 : Int) ∉ ([1, 2] : List Int) ∨ ([1, 2] : List Int).length ≠ 2) →
        r = 0)) :=
  c4_cell_eliminate_spec ⟨0, 0, (0, 0), [1, 2]⟩ 2 (by decide)

/-! ## Specification of the branch-point choice (`min` with key) -/

theorem keyLt_irrefl (a : Nat × List Int) : ¬ keyLt a a := by
  unfold keyLt
  omega

theorem keyLt_asym {a b : Nat × List Int} (h : keyLt a b) : ¬ keyLt b a := by
  unfold keyLt at *
  omega

theorem keyLe_trans {a b c : Nat × List Int}
    (h1 : ¬ keyLt b a) (h2 : ¬ keyLt c b) : ¬ keyLt c a := by
  unfold keyLt at *
  omega

theorem pyMinFold_mem :
    ∀ (xs : List (Nat × List Int)) (x : Nat × List Int),
      xs.foldl (fun best y => if keyLt y best then y else best) x = x ∨
      xs.foldl (fun best y => if keyLt y best then y else best) x ∈ xs := by
  intro xs
  induction xs with
  | nil => intro x; left; rfl
  | cons z zs ih =>
      intro x
      rw [List.foldl_cons]
      rcases ih (if keyLt z x then z else x) with h | h
      · rw [h]
        by_cases hz : keyLt z x
        · rw [if_pos hz]; right; simp
        · rw [if_neg hz]; left; rfl
      · right; simp [h]

theorem pyMinFold_le :
    ∀ (xs : List (Nat × List Int)) (x y : Nat × List Int),
      (y = x ∨ y ∈ xs) →
      ¬ keyLt y (xs.foldl (fun best y => if keyLt y best then y else best) x) := by
  intro xs
  induction xs with
  | nil =>
      intro x y hy
      rcases hy with rfl | hy
      · exact keyLt_irrefl y
      · cases hy
  | cons z zs ih =>
      intro x y hy
      rw [List.foldl_cons]
      have hA := ih (if keyLt z x then z else x)
        (if keyLt z x then z else x) (Or.inl rfl)
      rcases hy with rfl | hy
      · have hAx : ¬ keyLt y (if keyLt z y then z else y) := by
          by_cases hz : keyLt z y
          · rw [if_pos hz]; exact keyLt_asym hz
          · rw [if_neg hz]; exact keyLt_irrefl y
        exact keyLe_trans hA hAx
      · rcases List.mem_cons.mp hy with rfl | hy
        · have hAz : ¬ keyLt y (if keyLt y x then y else x) := by
            by_cases hz : keyLt y x
            · rw [if_pos hz]; exact keyLt_irrefl y
            · rw [if_neg hz]; exact hz
          exact keyLe_trans hA hAz
        · exact ih (if keyLt z x then z else x) y (Or.inr hy)

theorem pyMin_spec {l : List (Nat × List Int)} {m : Nat × List Int}
    (h : pyMin l = some m) : m ∈ l ∧ ∀ y ∈ l, ¬ keyLt y m := by
  cases l with
  | nil => cases h
  | cons x xs =>
      unfold pyMin at h
      have hm : m = xs.foldl (fun best y => if keyLt y best then y else best) x := by
        cases h
        rfl
      subst hm
      constructor
      · rcases pyMinFold_mem xs x with h1 | h1
        · rw [h1]; simp
        · simp [h1]
      · intro y hy
        rcases List.mem_cons.mp hy with rfl | hy
        · exact pyMinFold_le xs y y (Or.inl rfl)
        · exact pyMinFold_le xs x y (Or.inr hy)

theorem candListAux_mem_iff :
    ∀ (cells : List Cell) (i0 idx : Nat) (l : List Int),
      (idx, l) ∈ candListAux i0 cells ↔
      ∃ k, idx = i0 + k ∧ k < cells.length ∧
        (cells.getD k default).possibilities = l ∧ 1 < l.length := by
  intro cells
  induction cells with
  | nil =>
      intro i0 idx l
      simp [candListAux]
  | cons c rest ih =>
      intro i0 idx l
      rw [candListAux]
      by_cases hc : 1 < c.possibilities.length
      · rw [if_pos hc]
        constructor
        · intro hmem
          rcases List.mem_cons.mp hmem with heq | hmem2
          · cases heq
            exact ⟨0, by omega, by simp, by simp, hc⟩
          · obtain ⟨k, hk1, hk2, hk3, hk4⟩ := (ih (i0 + 1) idx l).mp hmem2
            exact ⟨k + 1, by omega, by simp; omega, by simpa using hk3, hk4⟩
        · intro ⟨k, hk1, hk2, hk3, hk4⟩
          cases k with
          | zero =>
              simp only [List.getD_cons_zero] at hk3
              have hidx : idx = i0 := by omega
              subst hidx
              rw [← hk3]
              exact List.mem_cons_self _ _
          | succ k =>
              right
              refine (ih (i0 + 1) idx l).mpr ⟨k, by omega, by simp at hk2; omega,
                by simpa using hk3, hk4⟩
      · rw [if_neg hc]
        constructor
        · intro hmem
          obtain ⟨k, hk1, hk2, hk3, hk4⟩ := (ih (i0 + 1) idx l).mp hmem
          exact ⟨k + 1, by omega, by simp; omega, by simpa using hk3, hk4⟩
        · intro ⟨k, hk1, hk2, hk3, hk4⟩
          cases k with
          | zero =>
              simp only [List.getD_cons_zero] at hk3
              rw [hk3] at hc
              exact absurd hk4 hc
          | succ k =>
              refine (ih (i0 + 1) idx l).mpr ⟨k, by omega, by simp at hk2; omega,
                by simpa using hk3, hk4⟩

theorem candList_mem_iff {s : Sudoku} {idx : Nat} {l : List Int} :
    (idx, l) ∈ s.candList ↔
      idx < s.cells.length ∧ (s.cellAt idx).possibilities = l ∧
        1 < l.length := by
  unfold Sudoku.candList
  rw [candListAux_mem_iff]
  constructor
  · intro ⟨k, hk1, hk2, hk3, hk4⟩
    have : idx = k := by omega
    subst this
    exact ⟨hk2, hk3, hk4⟩
  · intro ⟨h1, h2, h3⟩
    exact ⟨idx, by omega, h1, h2, h3⟩

/-- Inversion of `_easy_step` returning a branch point. -/
theorem easyStep_some_inv {fuel : Nat} {s s1 : Sudoku} {idx : Nat}
    {poss : List Int}
    (h : Sudoku.easyStep fuel s = .ok (s1, some (idx, poss))) :
    s.is_solved = false ∧ Sudoku.easyLoop fuel s 0 = .ok s1 ∧
    s1.is_solved = false ∧ pyMin s1.candList = some (idx, poss) := by
  unfold Sudoku.easyStep at h
  by_cases hsolved : s.is_solved
  · rw [if_pos hsolved] at h
    cases h
  · rw [if_neg hsolved] at h
    cases hloop : Sudoku.easyLoop fuel s 0 with
    | ok s2 =>
        rw [hloop] at h
        dsimp only at h
        by_cases hsolved2 : s2.is_solved
        · rw [if_pos hsolved2] at h
          cases h
        · rw [if_neg hsolved2] at h
          cases hmin : pyMin s2.candList with
          | none => rw [hmin] at h; cases h
          | some best =>
              rw [hmin] at h
              cases h
              exact ⟨by simpa using hsolved, rfl,
                by simpa using hsolved2, hmin⟩
    | clash => rw [hloop] at h; cases h
    | fuelOut => rw [hloop] at h; cases h
    | err e => rw [hloop] at h; cases h

/-- Inversion of `_easy_step` reporting a solved state. -/
theorem easyStep_none_inv {fuel : Nat} {s s1 : Sudoku}
    (h : Sudoku.easyStep fuel s = .ok (s1, none)) :
    (s.is_solved = true ∧ s1 = s) ∨
    (s.is_solved = false ∧ Sudoku.easyLoop fuel s 0 = .ok s1 ∧
      s1.is_solved = true) := by
  unfold Sudoku.easyStep at h
  by_cases hsolved : s.is_solved
  · rw [if_pos hsolved] at h
    cases h
    exact Or.inl ⟨hsolved, rfl⟩
  · rw [if_neg hsolved] at h
    cases hloop : Sudoku.easyLoop fuel s 0 with
    | ok s2 =>
        rw [hloop] at h
        dsimp only at h
        by_cases hsolved2 : s2.is_solved
        · rw [if_pos hsolved2] at h
          cases h
          exact Or.inr ⟨by simpa using hsolved, rfl, hsolved2⟩
        · rw [if_neg hsolved2] at h
          cases hmin : pyMin s2.candList with
          | none => rw [hmin] at h; cases h
          | some best => rw [hmin] at h; cases h
    | clash => rw [hloop] at h; cases h
    | fuelOut => rw [hloop] at h; cases h
    | err e => rw [hloop] at h; cases h

/-- The branch point chosen by `_easy_step` is the candidate-count/index
lexicographic minimum among the cells with more than one candidate. -/
theorem mrv_branch_spec {fuel : Nat} {s s1 : Sudoku} {idx : Nat}
    {poss : List Int}
    (h : Sudoku.easyStep fuel s = .ok (s1, some (idx, poss))) :
    s1.is_solved = false ∧
    idx < s1.cells.length ∧
    poss = (s1.cellAt idx).possibilities ∧
    1 < poss.length ∧
    ∀ k, k < s1.cells.length → 1 < (s1.cellAt k).possibilities.length →
      poss.length < (s1.cellAt k).possibilities.length ∨
      (poss.length = (s1.cellAt k).possibilities.length ∧ idx ≤ k) := by
  obtain ⟨-, -, hsolved1, hmin⟩ := easyStep_some_inv h
  obtain ⟨hmem, hle⟩ := pyMin_spec hmin
  obtain ⟨hidx, hposs, hlen⟩ := candList_mem_iff.mp hmem
  refine ⟨hsolved1, hidx, hposs.symm, by omega, ?_⟩
  intro k hk hk2
  have hkmem : (k, (s1.cellAt k).possibilities) ∈ s1.candList :=
    candList_mem_iff.mpr ⟨hk, rfl, hk2⟩
  have := hle _ hkmem
  unfold keyLt at this
  push_neg at this
  simp only at this
  have h1 := this.1
  have h2 := this.2
  rw [hposs] at *
  omega

/-! ## Claim C5 -/

/-- C5: whenever `_easy_step` selects a branch point after the propagation
pass, the chosen cell has more than one remaining candidate and, among all
cells with more than one remaining candidate, it has the fewest
candidates, with ties broken by the lowest row-major index. -/
theorem c5_mrv_branch_choice {fuel : Nat} {s s1 : Sudoku} {idx : Nat}
    {poss : List Int}
    (h : Sudoku.easyStep fuel s = .ok (s1, some (idx, poss))) :
    s1.is_solved = false ∧
    idx < s1.cells.length ∧
    poss = (s1.cellAt idx).possibilities ∧
    1 < poss.length ∧
    ∀ k, k < s1.cells.length → 1 < (s1.cellAt k).possibilities.length →
      poss.length < (s1.cellAt k).possibilities.length ∨
      (poss.length = (s1.cellAt k).possibilities.length ∧ idx ≤ k) :=
  mrv_branch_spec h

/-- Witness for C5 at the concrete grid `deadlyArr`: after propagation the
four empty cells all hold two candidates, and the branch point is the
lowest-indexed one (index 9). -/
theorem c5_witness :
    Sudoku.easyStep 100 deadlySudoku = .ok (deadlyStepped, some (9, [1, 3])) ∧
    (deadlyStepped.is_solved = false ∧
      9 < deadlyStepped.cells.length ∧
      ([1, 3] : List Int) = (deadlyStepped.cellAt 9).possibilities ∧
      1 < ([1, 3] : List Int).length ∧
      ∀ k, k < deadlyStepped.cells.length →
        1 < (deadlyStepped.cellAt k).possibilities.length →
        ([1, 3] : List Int).length
          < (deadlyStepped.cellAt k).possibilities.length ∨
        (([1, 3] : List Int).length
          = (deadlyStepped.cellAt k).possibilities.length ∧ 9 ≤ k)) :=
  ⟨by decide, @c5_mrv_branch_choice 100 deadlySudoku deadlyStepped 9 [1, 3] (by decide)⟩

/-! ## Claim C9 -/

/-- C9: every candidate value handed to the search loop is a member of
the branch cell's candidate list at the moment of assignment, so the
assignment `new_sudoku2.cells[cell_idx].value = possibility` always
succeeds and can never raise `ClashException`. -/
theorem c9_assign_listed_candidate_safe {fuel : Nat} {s s1 : Sudoku}
    {idx : Nat} {poss : List Int}
    (h : Sudoku.easyStep fuel s = .ok (s1, some (idx, poss))) :
    ∀ p ∈ poss,
      p ∈ (s1.cellAt idx).possibilities ∧
      (∃ s2, Sudoku.setCellValue s1 idx p = .ok s2) ∧
      ∀ e, Sudoku.setCellValue s1 idx p ≠ .error e := by
  obtain ⟨-, hidx, hposs, -, -⟩ := mrv_branch_spec h
  intro p hp
  have hmem : p ∈ (s1.cellAt idx).possibilities := by
    rw [← hposs]
    exact hp
  have hset : Sudoku.setCellValue s1 idx p
      = .ok ⟨s1.cells.set idx { s1.cellAt idx with possibilities := [p] }⟩ := by
    unfold Sudoku.setCellValue
    rw [if_pos hidx]
    unfold Cell.setValue
    rw [if_pos hmem]
  exact ⟨hmem, ⟨_, hset⟩, fun e he => by rw [hset] at he; cases he⟩

/-- Witness for C9 at the concrete grid `deadlyArr` with candidate 3. -/
theorem c9_witness :
    (3 : Int) ∈ ([1, 3] : List Int) ∧
    ((3 : Int) ∈ (deadlyStepped.cellAt 9).possibilities ∧
      (∃ s2, Sudoku.setCellValue deadlyStepped 9 3 = .ok s2) ∧
      ∀ e, Sudoku.setCellValue deadlyStepped 9 3 ≠ .error e) :=
  ⟨by decide, @c9_assign_listed_candidate_safe 100 deadlySudoku deadlyStepped 9 [1, 3] (by decide) 3 (by decide)⟩

/-! ## Claim C6 -/

/-- C6: the branch cell's candidate list handed to the search loop is
strictly ascending (candidate lists start ascending and only ever lose
elements), and the loop returns the first successful recursive result
immediately — the remaining candidates are never consulted. -/
theorem c6_candidates_ascending_first_win :
    (∀ (fuel : Nat) (s s1 : Sudoku) (idx : Nat) (poss : List Int),
      AllSorted s →
      Sudoku.easyStep fuel s = .ok (s1, some (idx, poss)) →
      List.Sorted (· < ·) poss) ∧
    (∀ (fuel : Nat) (s s2 out : Sudoku) (idx : Nat) (p : Int)
      (rest : List Int),
      Sudoku.setCellValue s idx p = .ok s2 →
      Sudoku.solve fuel s2 = .ok out →
      Sudoku.tryCands (fuel + 1) s idx (p :: rest) = .ok out) := by
  constructor
  · intro fuel s s1 idx poss hsorted h
    obtain ⟨-, hloop, -, -⟩ := easyStep_some_inv h
    have hev := easyLoop_evolves fuel s 0 s1 hloop
    have hsorted1 : AllSorted s1 := AllSorted_evolves hev hsorted
    obtain ⟨-, hidx, hposs, -, -⟩ := mrv_branch_spec h
    rw [hposs]
    exact hsorted1 idx hidx
  · intro fuel s s2 out idx p rest hset hsolve
    rw [Sudoku.tryCands, hset]
    dsimp only
    rw [hsolve]

/-- Witness for C6: the deadly grid's branch candidates `[1, 3]` are
ascending, and with junk trailing candidate `99` the loop still returns
the solution obtained from the first candidate. -/
theorem c6_witness :
    (AllSorted deadlySudoku ∧ List.Sorted (· < ·) ([1, 3] : List Int)) ∧
    (Sudoku.setCellValue deadlyStepped 9 1 = .ok deadlyAssigned ∧
      Sudoku.solve 100 deadlyAssigned = .ok deadlySolved ∧
      Sudoku.tryCands 101 deadlyStepped 9 (1 :: [99]) = .ok deadlySolved) := by
  refine ⟨⟨by decide, ?_⟩, by decide, by decide, ?_⟩
  · exact c6_candidates_ascending_first_win.1 100 deadlySudoku deadlyStepped
      9 [1, 3] (by decide) (by decide)
  · exact c6_candidates_ascending_first_win.2 100 deadlyStepped deadlyAssigned
      deadlySolved 9 1 [99] (by decide) (by decide)

/-! ## Soundness of the elimination cascade (no conflicting values) -/

theorem matchesCell_snd_congr {s t : Sudoku} (hev : evolves s t)
    (cell : Cell) (k : Nat) :
    Cell.matchesCell cell (t.cellAt k) = Cell.matchesCell cell (s.cellAt k) :=
  matchesCell_congr rfl rfl rfl (hev.2 k).1 (hev.2 k).2.1 (hev.2 k).2.2.1

theorem cellEq_snd_congr {s t : Sudoku} (hev : evolves s t)
    (cell : Cell) (k : Nat) :
    cellEq cell (t.cellAt k) = cellEq cell (s.cellAt k) :=
  cellEq_congr rfl rfl (hev.2 k).1 (hev.2 k).2.1

theorem matchesCell_symm_true {a b : Cell}
    (h : Cell.matchesCell a b = true) : Cell.matchesCell b a = true := by
  simp only [Cell.matchesCell, Bool.or_eq_true, beq_iff_eq] at *
  tauto

theorem cellEq_symm_false {a b : Cell} (h : cellEq a b = false) :
    cellEq b a = false := by
  cases hc : cellEq b a with
  | false => rfl
  | true =>
      exfalso
      simp only [cellEq, Bool.and_eq_true, beq_iff_eq] at hc
      have : cellEq a b = true := by
        simp only [cellEq, Bool.and_eq_true, beq_iff_eq]
        exact ⟨hc.1.symm, hc.2.symm⟩
      rw [this] at h
      cases h

theorem cellEq_self (a : Cell) : cellEq a a = true := by
  simp [cellEq]

theorem propagatedAt_stable {s t : Sudoku} (hev : evolves s t) {p : Nat}
    {v : Int} (hs : (s.cellAt p).possibilities = [v])
    (hprop : propagatedAt s p) : propagatedAt t p := by
  intro w hw k hk hm hce
  have hw2 : (t.cellAt p).possibilities = [v] := singleton_stable hev hs
  have hwv : w = v := by
    rw [hw] at hw2
    exact (List.cons.injEq w [] v []).mp hw2 |>.1
  subst hwv
  have hk2 : k < s.cells.length := by
    have := hev.1
    omega
  have hm2 : Cell.matchesCell (s.cellAt p) (s.cellAt k) = true := by
    rw [← matchesCell_evolves hev p k]
    exact hm
  have hce2 : cellEq (s.cellAt p) (s.cellAt k) = false := by
    rw [← cellEq_evolves hev p k]
    exact hce
  exact not_mem_stable hev (hprop w hs k hk2 hm2 hce2)

/-- The heart of propagation soundness: when the elimination loop for
value `v` of `cell` completes without a clash, (1) `v` is gone from every
conflicting cell the loop was still due to visit, and (2) every cell that
is determined afterwards either was already determined (to the same value)
before the call, or has been fully propagated in the final state. -/
theorem elimLoop_cascade :
    ∀ (fuel : Nat) (s : Sudoku) (cell : Cell) (v : Int) (j : Nat)
      (s' : Sudoku),
      PossOK s →
      Sudoku.elimLoop fuel s cell v j = .ok s' →
      ((∀ k, j ≤ k → k < s.cells.length →
        Cell.matchesCell cell (s.cellAt k) = true →
        cellEq cell (s.cellAt k) = false →
        v ∉ (s'.cellAt k).possibilities) ∧
      (∀ p w, (s'.cellAt p).possibilities = [w] →
        (s.cellAt p).possibilities = [w] ∨ propagatedAt s' p)) := by
  intro fuel
  induction fuel with
  | zero =>
      intro s cell v j s' hpok h
      simp [Sudoku.elimLoop] at h
  | succ fuel ih =>
      intro s cell v j s' hpok h
      rw [Sudoku.elimLoop] at h
      by_cases hj : j < s.cells.length
      · rw [if_pos hj] at h
        by_cases hceq : cellEq cell (s.cellAt j) = true
        · rw [if_pos hceq] at h
          obtain ⟨c1, c2⟩ := ih s cell v (j + 1) s' hpok h
          refine ⟨?_, c2⟩
          intro k hjk hk hm hce
          by_cases hkj : k = j
          · subst hkj
            rw [hceq] at hce
            cases hce
          · exact c1 k (by omega) hk hm hce
        · rw [if_neg hceq] at h
          by_cases hmj : Cell.matchesCell cell (s.cellAt j) = true
          · rw [if_pos hmj] at h
            rcases helim : (s.cellAt j).eliminate v with e | ⟨o2, ns⟩
            · rw [helim] at h
              dsimp only at h
              cases h
            · rw [helim] at h
              dsimp only at h
              obtain ⟨hr, hc, hg, hposs2, hnv, hrval⟩ :=
                Cell.eliminate_ok_inv helim
              have hstep : evolves s ⟨s.cells.set j o2⟩ := by
                refine evolves_set hj hr hc hg ?_ ?_
                · rw [hposs2]; exact List.erase_sublist v _
                · exact Cell.eliminate_ok_nonempty helim
              have hpok2 : PossOK ⟨s.cells.set j o2⟩ :=
                PossOK_evolves hstep hpok
              have hvnotin : v ∉ o2.possibilities := by
                by_cases hv : v ∈ (s.cellAt j).possibilities
                · rw [hposs2]
                  exact ((hpok j hj).1).not_mem_erase
                · rw [hposs2, List.erase_of_not_mem hv]
                  exact hv
              by_cases hns : ns ≠ 0
              · -- a newly determined cell: the nested cascade runs
                rw [if_pos hns] at h
                have hvmem : v ∈ (s.cellAt j).possibilities := by
                  by_contra hvn
                  rw [if_neg hvn] at hrval
                  exact hns hrval
                rw [if_pos hvmem] at hrval
                have ho2sing : o2.possibilities = [ns] := by
                  rw [hrval]
                  exact Cell.poss_of_value_ne_zero (by rw [← hrval]; exact hns)
                cases hrec : Sudoku.elimLoop fuel ⟨s.cells.set j o2⟩ o2 ns 0 with
                | clash => rw [hrec] at h; dsimp only at h; cases h
                | fuelOut => rw [hrec] at h; dsimp only at h; cases h
                | err e => rw [hrec] at h; dsimp only at h; cases h
                | ok s3 =>
                    rw [hrec] at h
                    dsimp only at h
                    have hev23 := elimLoop_evolves _ _ _ _ _ _ hrec
                    have hev3' := elimLoop_evolves _ _ _ _ _ _ h
                    have hev2' : evolves ⟨s.cells.set j o2⟩ s' :=
                      evolves_trans hev23 hev3'
                    have hev03 : evolves s s3 := evolves_trans hstep hev23
                    have hpok3 : PossOK s3 := PossOK_evolves hev23 hpok2
                    obtain ⟨d1, d2⟩ := ih _ o2 ns 0 s3 hpok2 hrec
                    obtain ⟨c1, c2⟩ := ih s3 cell v (j + 1) s' hpok3 h
                    constructor
                    · intro k hjk hk hm hce
                      by_cases hkj : k = j
                      · subst hkj
                        refine not_mem_stable hev2' ?_
                        rw [cellAt_set_self hj]
                        exact hvnotin
                      · refine c1 k (by omega) (by rw [hev03.1]; omega) ?_ ?_
                        · rw [matchesCell_snd_congr hev03 cell k]
                          exact hm
                        · rw [cellEq_snd_congr hev03 cell k]
                          exact hce
                    · intro p w hw
                      rcases c2 p w hw with hs3p | hps'
                      · rcases d2 p w hs3p with hs2p | hps3
                        · by_cases hpj : p = j
                          · subst hpj
                            right
                            intro w' hw' k hk hmm hcc
                            have hsing2 :
                                ((⟨s.cells.set p o2⟩ : Sudoku).cellAt p).possibilities
                                  = [ns] := by
                              rw [cellAt_set_self hj]
                              exact ho2sing
                            have hsing' : (s'.cellAt p).possibilities = [ns] :=
                              singleton_stable hev2' hsing2
                            have hw'ns : w' = ns := by
                              rw [hw'] at hsing'
                              exact ((List.cons.injEq w' [] ns []).mp hsing').1
                            subst hw'ns
                            have hk2 : k < (⟨s.cells.set p o2⟩ : Sudoku).cells.length := by
                              have h1 := hev2'.1
                              omega
                            have hmm2 : Cell.matchesCell o2
                                ((⟨s.cells.set p o2⟩ : Sudoku).cellAt k) = true := by
                              rw [← hmm]
                              refine matchesCell_congr ?_ ?_ ?_
                                ((hev2'.2 k).1).symm ((hev2'.2 k).2.1).symm
                                ((hev2'.2 k).2.2.1).symm
                              · rw [(hev2'.2 p).1, cellAt_set_self hj]
                              · rw [(hev2'.2 p).2.1, cellAt_set_self hj]
                              · rw [(hev2'.2 p).2.2.1, cellAt_set_self hj]
                            have hcc2 : cellEq o2
                                ((⟨s.cells.set p o2⟩ : Sudoku).cellAt k) = false := by
                              rw [← hcc]
                              refine cellEq_congr ?_ ?_
                                ((hev2'.2 k).1).symm ((hev2'.2 k).2.1).symm
                              · rw [(hev2'.2 p).1, cellAt_set_self hj]
                              · rw [(hev2'.2 p).2.1, cellAt_set_self hj]
                            exact not_mem_stable hev3'
                              (d1 k (Nat.zero_le k) hk2 hmm2 hcc2)
                          · left
                            rw [cellAt_set_ne hpj] at hs2p
                            exact hs2p
                        · right
                          exact propagatedAt_stable hev3' hs3p hps3
                      · right
                        exact hps'
              · rw [if_neg hns] at h
                push_neg at hns
                rw [hns] at hrval
                have hev2' := elimLoop_evolves _ _ _ _ _ _ h
                obtain ⟨c1, c2⟩ := ih _ cell v (j + 1) s' hpok2 h
                constructor
                · intro k hjk hk hm hce
                  by_cases hkj : k = j
                  · subst hkj
                    refine not_mem_stable hev2' ?_
                    rw [cellAt_set_self hj]
                    exact hvnotin
                  · refine c1 k (by omega) (by simpa using hk) ?_ ?_
                    · rw [cellAt_set_ne hkj]
                      exact hm
                    · rw [cellAt_set_ne hkj]
                      exact hce
                · intro p w hw
                  rcases c2 p w hw with hs2p | hps'
                  · by_cases hpj : p = j
                    · subst hpj
                      rw [cellAt_set_self hj] at hs2p
                      by_cases hvmem : v ∈ (s.cellAt p).possibilities
                      · exfalso
                        rw [if_pos hvmem] at hrval
                        have hval : o2.value = w := by
                          simp [Cell.value, hs2p]
                        have hwpos : 0 < w := by
                          have := (hpok2 p (by simpa using hj)).2.2 w
                          rw [cellAt_set_self hj, hs2p] at this
                          exact this (by simp)
                        rw [hval] at hrval
                        omega
                      · left
                        rw [hposs2, List.erase_of_not_mem hvmem] at hs2p
                        exact hs2p
                    · left
                      rw [cellAt_set_ne hpj] at hs2p
                      exact hs2p
                  · right
                    exact hps'
          · rw [if_neg hmj] at h
            obtain ⟨c1, c2⟩ := ih s cell v (j + 1) s' hpok h
            refine ⟨?_, c2⟩
            intro k hjk hk hm hce
            by_cases hkj : k = j
            · subst hkj
              exact absurd hm hmj
            · exact c1 k (by omega) hk hm hce
      · rw [if_neg hj] at h
        cases h
        constructor
        · intro k hjk hk hm hce
          omega
        · intro p w hw
          left
          exact hw

/-- After a completed elimination pass: every determined cell (below the
untouched tail of indices) has been fully propagated in the final state. -/
theorem easyLoop_done :
    ∀ (fuel : Nat) (s : Sudoku) (i : Nat) (s' : Sudoku),
      PossOK s →
      (∀ p, p < i → ∀ w, (s.cellAt p).possibilities = [w] → propagatedAt s p) →
      Sudoku.easyLoop fuel s i = .ok s' →
      ∀ p w, (s'.cellAt p).possibilities = [w] →
        propagatedAt s' p ∨ s'.cells.length ≤ p := by
  intro fuel
  induction fuel with
  | zero =>
      intro s i s' _ _ h
      simp [Sudoku.easyLoop] at h
  | succ fuel ih =>
      intro s i s' hpok hpre h
      rw [Sudoku.easyLoop] at h
      by_cases hi : i < s.cells.length
      · rw [if_pos hi] at h
        by_cases hv : (s.cellAt i).value ≠ 0
        · rw [if_pos hv] at h
          cases helim : Sudoku.eliminate fuel s (s.cellAt i) with
          | clash => rw [helim] at h; dsimp only at h; cases h
          | fuelOut => rw [helim] at h; dsimp only at h; cases h
          | err e => rw [helim] at h; dsimp only at h; cases h
          | ok s2 =>
              rw [helim] at h
              dsimp only at h
              unfold Sudoku.eliminate at helim
              rw [if_neg hv] at helim
              have hsing : (s.cellAt i).possibilities = [(s.cellAt i).value] :=
                Cell.poss_of_value_ne_zero hv
              have hev : evolves s s2 := elimLoop_evolves _ _ _ _ _ _ helim
              have hpok2 : PossOK s2 := PossOK_evolves hev hpok
              obtain ⟨e1, e2⟩ :=
                elimLoop_cascade fuel s (s.cellAt i) (s.cellAt i).value 0 s2
                  hpok helim
              have hpre2 : ∀ p, p < i + 1 → ∀ w,
                  (s2.cellAt p).possibilities = [w] → propagatedAt s2 p := by
                intro p hp w hw
                rcases e2 p w hw with hold | hprop
                · by_cases hpi : p = i
                  · subst hpi
                    intro w' hw' k hk hmm hcc
                    have hw'2 : (s2.cellAt p).possibilities
                        = [(s.cellAt p).value] := singleton_stable hev hsing
                    have hw'v : w' = (s.cellAt p).value := by
                      rw [hw'] at hw'2
                      exact ((List.cons.injEq w' [] _ []).mp hw'2).1
                    subst hw'v
                    rw [matchesCell_evolves hev p k] at hmm
                    rw [cellEq_evolves hev p k] at hcc
                    refine e1 k (Nat.zero_le k) ?_ hmm hcc
                    have := hev.1
                    omega
                  · exact propagatedAt_stable hev hold
                      (hpre p (by omega) w hold)
                · exact hprop
              exact ih s2 (i + 1) s' hpok2 hpre2 h
        · rw [if_neg hv] at h
          push_neg at hv
          have hpre2 : ∀ p, p < i + 1 → ∀ w,
              (s.cellAt p).possibilities = [w] → propagatedAt s p := by
            intro p hp w hw
            by_cases hpi : p = i
            · subst hpi
              exfalso
              have hval : (s.cellAt p).value = w := by
                simp [Cell.value, hw]
              have hwpos : 0 < w := by
                refine (hpok p hi).2.2 w ?_
                rw [hw]
                simp
              rw [hv] at hval
              omega
            · exact hpre p (by omega) w hw
          exact ih s (i + 1) s' hpok hpre2 h
      · rw [if_neg hi] at h
        cases h
        intro p w hw
        rcases Nat.lt_or_ge p i with hp | hp
        · exact Or.inl (hpre p hp w hw)
        · right
          omega

/-- A state in which every determined cell is fully propagated holds no
two conflicting equal determined values. -/
theorem done_noConf {s : Sudoku}
    (h : ∀ p w, (s.cellAt p).possibilities = [w] →
      propagatedAt s p ∨ s.cells.length ≤ p) : NoConf s := by
  intro i j vi vj hi hj hm hce hpi hpj heq
  subst heq
  rcases h i vi hpi with hprop | hge
  · have := hprop vi hpi j hj hm hce
    apply this
    rw [hpj]
    simp
  · omega

/-- Inverting a successful `cells[idx].value = val` assignment. -/
theorem setCellValue_ok_inv {s s2 : Sudoku} {idx : Nat} {val : Int}
    (h : Sudoku.setCellValue s idx val = .ok s2) :
    idx < s.cells.length ∧ val ∈ (s.cellAt idx).possibilities ∧
    s2 = ⟨s.cells.set idx { s.cellAt idx with possibilities := [val] }⟩ := by
  unfold Sudoku.setCellValue at h
  split_ifs at h with h1
  · cases hsv : (s.cellAt idx).setValue val with
    | error e => rw [hsv] at h; cases h
    | ok c2 =>
        rw [hsv] at h
        dsimp only at h
        cases h
        unfold Cell.setValue at hsv
        split_ifs at hsv with h2
        · cases hsv
          exact ⟨h1, h2, rfl⟩

/-- Assignment of a listed candidate is an evolution step. -/
theorem assign_evolves {s s2 : Sudoku} {idx : Nat} {val : Int}
    (hset : Sudoku.setCellValue s idx val = .ok s2) : evolves s s2 := by
  obtain ⟨hidx, hmem, hs2⟩ := setCellValue_ok_inv hset
  subst hs2
  refine evolves_set hidx rfl rfl rfl ?_ ?_
  · exact List.singleton_sublist.mpr hmem
  · intro h
    simp

/-- Assigning one of the cell's own candidates in a fully propagated state
cannot create a pair of conflicting equal determined values. -/
theorem noConf_assign {s s2 : Sudoku} {idx : Nat} {val : Int}
    (hdone : ∀ p w, (s.cellAt p).possibilities = [w] →
      propagatedAt s p ∨ s.cells.length ≤ p)
    (hset : Sudoku.setCellValue s idx val = .ok s2) :
    NoConf s2 := by
  obtain ⟨hidx, hmem, hs2⟩ := setCellValue_ok_inv hset
  subst hs2
  intro i j vi vj hi hj hm hce hpi hpj heq
  subst heq
  have hleni : i < s.cells.length := by
    simpa using hi
  have hlenj : j < s.cells.length := by
    simpa using hj
  by_cases hii : i = idx
  · subst hii
    by_cases hjj : j = i
    · subst hjj
      rw [cellEq_self] at hce
      cases hce
    · rw [cellAt_set_ne hjj] at hpj
      rcases hdone j vi hpj with hprop | hge
      · have hmj : Cell.matchesCell (s.cellAt j) (s.cellAt i) = true := by
          refine matchesCell_symm_true ?_
          rw [cellAt_set_self hidx, cellAt_set_ne hjj] at hm
          rw [← hm]
          exact (matchesCell_congr rfl rfl rfl rfl rfl rfl).symm
        have hcej : cellEq (s.cellAt j) (s.cellAt i) = false := by
          refine cellEq_symm_false ?_
          rw [cellAt_set_self hidx, cellAt_set_ne hjj] at hce
          rw [← hce]
          exact (cellEq_congr rfl rfl rfl rfl).symm
        have hnot := hprop vi hpj i hleni hmj hcej
        rw [cellAt_set_self hidx] at hpi
        have hvival : val = vi := by
          have : ([val] : List Int) = [vi] := hpi
          exact ((List.cons.injEq val [] vi []).mp this).1
        rw [← hvival] at hnot
        exact hnot hmem
      · omega
  · rw [cellAt_set_ne hii] at hpi
    rcases hdone i vi hpi with hprop | hge
    · by_cases hjj : j = idx
      · subst hjj
        have hmi : Cell.matchesCell (s.cellAt i) (s.cellAt j) = true := by
          rw [cellAt_set_ne hii, cellAt_set_self hidx] at hm
          rw [← hm]
          exact (matchesCell_congr rfl rfl rfl rfl rfl rfl).symm
        have hcei : cellEq (s.cellAt i) (s.cellAt j) = false := by
          rw [cellAt_set_ne hii, cellAt_set_self hidx] at hce
          rw [← hce]
          exact (cellEq_congr rfl rfl rfl rfl).symm
        have hnot := hprop vi hpi j hlenj hmi hcei
        rw [cellAt_set_self hidx] at hpj
        have hvival : val = vi := by
          have : ([val] : List Int) = [vi] := hpj
          exact ((List.cons.injEq val [] vi []).mp this).1
        rw [← hvival] at hnot
        exact hnot hmem
      · rw [cellAt_set_ne hii] at hm
        rw [cellAt_set_ne hjj] at hm
        rw [cellAt_set_ne hii, cellAt_set_ne hjj] at hce
        rw [cellAt_set_ne hjj] at hpj
        have hnot := hprop vi hpi j hlenj hm hce
        apply hnot
        rw [hpj]
        simp
    · omega

/-- Combined soundness of the mutual search recursion: a state returned
with `ok` is solved, its candidate lists stayed well formed, and it holds
no pair of conflicting equal determined values; `solve` additionally
assumes the conflict-freedom invariant at entry, while the candidate loop
assumes full propagation of the state it branches from. -/
theorem solve_tryCands_sound :
    ∀ fuel : Nat,
      (∀ s s', PossOK s → NoConf s → Sudoku.solve fuel s = .ok s' →
        evolves s s' ∧ PossOK s' ∧ NoConf s' ∧ s'.is_solved = true) ∧
      (∀ s idx l s', PossOK s →
        (∀ p w, (s.cellAt p).possibilities = [w] →
          propagatedAt s p ∨ s.cells.length ≤ p) →
        Sudoku.tryCands fuel s idx l = .ok s' →
        evolves s s' ∧ PossOK s' ∧ NoConf s' ∧ s'.is_solved = true) := by
  intro fuel
  induction fuel with
  | zero =>
      constructor
      · intro s s' _ _ h
        simp [Sudoku.solve] at h
      · intro s idx l s' _ _ h
        simp [Sudoku.tryCands] at h
  | succ fuel ih =>
      obtain ⟨ihS, ihT⟩ := ih
      constructor
      · intro s s' hpok hnc h
        rw [Sudoku.solve] at h
        cases hstep : Sudoku.easyStep fuel s with
        | clash => rw [hstep] at h; dsimp only at h; cases h
        | fuelOut => rw [hstep] at h; dsimp only at h; cases h
        | err e => rw [hstep] at h; dsimp only at h; cases h
        | ok pr =>
            obtain ⟨s2, r⟩ := pr
            cases r with
            | none =>
                rw [hstep] at h
                dsimp only at h
                cases h
                rcases easyStep_none_inv hstep with
                  ⟨hsolved, rfl⟩ | ⟨-, hloop, hsolved2⟩
                · exact ⟨evolves_refl _, hpok, hnc, hsolved⟩
                · have hev := easyLoop_evolves fuel s 0 s' hloop
                  have hpok2 := PossOK_evolves hev hpok
                  have hdone := easyLoop_done fuel s 0 s' hpok
                    (fun p hp => absurd hp (Nat.not_lt_zero p)) hloop
                  exact ⟨hev, hpok2, done_noConf hdone, hsolved2⟩
            | some br =>
                obtain ⟨idx, poss⟩ := br
                rw [hstep] at h
                dsimp only at h
                obtain ⟨-, hloop, -, -⟩ := easyStep_some_inv hstep
                have hev := easyLoop_evolves fuel s 0 s2 hloop
                have hpok2 := PossOK_evolves hev hpok
                have hdone := easyLoop_done fuel s 0 s2 hpok
                  (fun p hp => absurd hp (Nat.not_lt_zero p)) hloop
                obtain ⟨hev2, hpok', hnc', hsolved'⟩ :=
                  ihT s2 idx poss s' hpok2 hdone h
                exact ⟨evolves_trans hev hev2, hpok', hnc', hsolved'⟩
      · intro s idx l s' hpok hdone h
        cases l with
        | nil =>
            rw [Sudoku.tryCands] at h
            cases h
        | cons p rest =>
            rw [Sudoku.tryCands] at h
            cases hset : Sudoku.setCellValue s idx p with
            | error e =>
                rw [hset] at h
                cases e <;> dsimp only at h <;> cases h
            | ok s2 =>
                rw [hset] at h
                dsimp only at h
                have hev2 := assign_evolves hset
                have hpok2 := PossOK_evolves hev2 hpok
                have hnc2 := noConf_assign hdone hset
                cases hsolve : Sudoku.solve fuel s2 with
                | ok out =>
                    rw [hsolve] at h
                    dsimp only at h
                    cases h
                    obtain ⟨hev3, hpok', hnc', hsolved'⟩ :=
                      ihS s2 s' hpok2 hnc2 hsolve
                    exact ⟨evolves_trans hev2 hev3, hpok', hnc', hsolved'⟩
                | clash =>
                    rw [hsolve] at h
                    dsimp only at h
                    exact ihT s idx rest s' hpok hdone h
                | fuelOut => rw [hsolve] at h; dsimp only at h; cases h
                | err e => rw [hsolve] at h; dsimp only at h; cases h

/-! ## Invariants of the initial state built from a validated grid -/

theorem fullRange_nodup (order : Nat) : (fullRange order).Nodup := by
  refine List.Nodup.map ?_ (List.nodup_range _)
  intro a b hab
  dsimp only at hab
  have h2 : a + 1 = b + 1 := by exact_mod_cast hab
  omega

theorem fullRange_ne_nil {order : Nat} (h : 0 < order) :
    fullRange order ≠ [] := by
  intro hh
  have hl := fullRange_length order
  rw [hh] at hl
  have h2 : 0 < order ^ 2 := pow_pos h 2
  simp at hl
  omega

/-- Every cell of the state built from a validated grid has a duplicate-free,
nonempty candidate list of positive values. -/
theorem init_PossOK {arr : List (List Int)} {S : Sudoku}
    (h : Sudoku.init arr = .ok S) : PossOK S := by
  obtain ⟨order, hval, rfl⟩ := init_ok_inv h
  obtain ⟨hord, hrows⟩ := validate_ok_inv hval
  intro i hi
  rw [initSudoku_length hval] at hi
  have hLpos : 0 < arr.length := by
    rcases Nat.eq_zero_or_pos arr.length with h0 | hp
    · rw [h0] at hi; simp at hi
    · exact hp
  have hr : i / arr.length < arr.length :=
    (Nat.div_lt_iff_lt_mul hLpos).mpr hi
  have hc : i % arr.length < arr.length := Nat.mod_lt i hLpos
  have hdecomp : (i / arr.length) * arr.length + (i % arr.length) = i := by
    rw [Nat.mul_comm]
    exact Nat.div_add_mod i arr.length
  have hcell := initSudoku_cellAt hval hr hc
  rw [hdecomp] at hcell
  rw [hcell]
  have hrowmem : arr.getD (i / arr.length) [] ∈ arr := getD_mem_any hr []
  have hrowfacts := hrows _ hrowmem
  have hvmem : (arr.getD (i / arr.length) []).getD (i % arr.length) 0
      ∈ arr.getD (i / arr.length) [] := by
    refine getD_mem_any ?_ 0
    rw [hrowfacts.1]
    exact hc
  have hvbound := hrowfacts.2 _ hvmem
  by_cases hv0 : (arr.getD (i / arr.length) []).getD (i % arr.length) 0 = 0
  · rw [hv0, initInt_poss_of_zero]
    have hordpos : 0 < order := by
      rcases Nat.eq_zero_or_pos order with h0 | hp
      · exfalso
        rw [h0] at hord
        simp at hord
        omega
      · exact hp
    refine ⟨fullRange_nodup order, fullRange_ne_nil hordpos, ?_⟩
    intro w hw
    have := fullRange_mem hw
    omega
  · rw [initInt_poss_of_ne hv0]
    refine ⟨List.nodup_singleton _, by simp, ?_⟩
    intro w hw
    have hwv := List.mem_singleton.mp hw
    subst hwv
    omega

/-- Distinct row-major positions of the initial state carry cells with
distinct coordinates. -/
theorem init_WFcoords {arr : List (List Int)} {S : Sudoku}
    (h : Sudoku.init arr = .ok S) : WFcoords S := by
  obtain ⟨order, hval, rfl⟩ := init_ok_inv h
  intro i j hi hj hij
  rw [initSudoku_length hval] at hi hj
  have hLpos : 0 < arr.length := by
    rcases Nat.eq_zero_or_pos arr.length with h0 | hp
    · rw [h0] at hi; simp at hi
    · exact hp
  have hri : i / arr.length < arr.length :=
    (Nat.div_lt_iff_lt_mul hLpos).mpr hi
  have hci : i % arr.length < arr.length := Nat.mod_lt i hLpos
  have hrj : j / arr.length < arr.length :=
    (Nat.div_lt_iff_lt_mul hLpos).mpr hj
  have hcj : j % arr.length < arr.length := Nat.mod_lt j hLpos
  have hdi : (i / arr.length) * arr.length + (i % arr.length) = i := by
    rw [Nat.mul_comm]
    exact Nat.div_add_mod i arr.length
  have hdj : (j / arr.length) * arr.length + (j % arr.length) = j := by
    rw [Nat.mul_comm]
    exact Nat.div_add_mod j arr.length
  have hcelli := initSudoku_cellAt hval hri hci
  rw [hdi] at hcelli
  have hcellj := initSudoku_cellAt hval hrj hcj
  rw [hdj] at hcellj
  rw [hcelli, hcellj]
  refine cellEq_initInt_false ?_
  by_contra hcon
  push_neg at hcon
  obtain ⟨h1, h2⟩ := hcon
  apply hij
  rw [← hdi, ← hdj, h1, h2]

/-! ## Claim C2 -/

/-- C2, as stated, is false: `solve` returns the fully given grid
`badFullArr` unchanged, although two cells in the same row hold the same
value — `_easy_step` declares a complete grid solved before any
propagation could detect the conflict. -/
theorem c2_counterexample_returned_grid_conflicts :
    Sudoku.init badFullArr = .ok badFullSudoku ∧
    Sudoku.solve 5 badFullSudoku = .ok badFullSudoku ∧
    ¬ noTwoShare badFullSudoku := by
  refine ⟨by decide, by decide, by decide⟩

/-- C2 amended: for every validated input grid whose initial state still
has an undetermined cell, every grid that `solve` returns holds no two
distinct cells that share a row, column or block with the same value. -/
theorem c2_amended_solve_no_conflicts
    {arr : List (List Int)} {S : Sudoku} {fuel : Nat} {s' : Sudoku}
    (hinit : Sudoku.init arr = .ok S)
    (hunsolved : S.is_solved = false)
    (hok : Sudoku.solve fuel S = .ok s') :
    noTwoShare s' := by
  have hpok := init_PossOK hinit
  have hwf := init_WFcoords hinit
  by_cases hnc : NoConf S
  · obtain ⟨hev, hpok', hnc', hsolved'⟩ :=
      (solve_tryCands_sound fuel).1 S s' hpok hnc hok
    have hwf' := WFcoords_evolves hev hwf
    intro i hi j hj hij hm
    have hvali : (s'.cellAt i).value ≠ 0 := by
      unfold Sudoku.is_solved at hsolved'
      have := List.all_eq_true.mp hsolved' _ (getD_mem hi)
      simpa [Sudoku.cellAt, List.getD] using this
    have hvalj : (s'.cellAt j).value ≠ 0 := by
      unfold Sudoku.is_solved at hsolved'
      have := List.all_eq_true.mp hsolved' _ (getD_mem hj)
      simpa [Sudoku.cellAt, List.getD] using this
    exact hnc' i j (s'.cellAt i).value (s'.cellAt j).value hi hj hm
      (hwf' i j hi hj hij)
      (Cell.poss_of_value_ne_zero hvali)
      (Cell.poss_of_value_ne_zero hvalj)
  · exfalso
    unfold NoConf at hnc
    push_neg at hnc
    obtain ⟨i, j, vi, vj, hi, hj, hm, hce, hpi, hpj, heq⟩ := hnc
    subst heq
    have hvpos : 0 < vi := (hpok i hi).2.2 vi (by rw [hpi]; simp)
    exact solve_dup_never_ok hunsolved hi hj hce hm hpi hpj
      (by omega) fuel s' hok

/-- Witness for the amended C2 on the nearly complete grid `nearlyArr`:
its solution holds no conflicting pair of equal values. -/
theorem c2_witness :
    Sudoku.init nearlyArr = .ok nearlySudoku ∧
    nearlySudoku.is_solved = false ∧
    Sudoku.solve 100 nearlySudoku = .ok nearlySolved ∧
    noTwoShare nearlySolved :=
  ⟨by decide, by decide, by decide,
    @c2_amended_solve_no_conflicts nearlyArr nearlySudoku 100 nearlySolved
      (by decide) (by decide) (by decide)⟩
